import Mathlib

/-! Shallow embedding of the knapsack-GRPO budget allocator
(`recipe/knapsack_grpo/utils/allocator.py`) and of the online
success-rate estimator (`recipe/knapsack_grpo/utils/success_estimator.py`).

NumPy float64 arithmetic is idealized as exact rational arithmetic (`ℚ`),
integer arrays as `List ℤ`, the per-key dict as an association list or a
function into `Option`, and Python `assert` failures as `Option.none`.
The DP table rows, which the source stores as dense arrays indexed by the
budget, are embedded as functions `ℕ → ℚ`; the source only ever reads
entries inside the array range, where the two representations agree. -/

/-- Source `_prob_nonzero_grad(N, p)`: probability that `N` Bernoulli(p)
draws contain both a success and a failure; zero at the extremes. -/
def probNonzeroGrad (N : ℤ) (p : ℚ) : ℚ :=
  if p ≤ 0 ∨ 1 ≤ p ∨ N ≤ 0 then 0
  else 1 - p ^ N.toNat - (1 - p) ^ N.toNat

/-- Source `_info_gain(p)`: the heuristic weight `p * (1-p) * (1-p)`. -/
def infoGain (p : ℚ) : ℚ :=
  if p ≤ 0 ∨ 1 ≤ p then 0 else p * (1 - p) * (1 - p)

/-- Source `_value_table(p, n_low, n_up)`, as a function of the excess
index `k`: the array entry at index `k` is the value at count `n_low + k`. -/
def valueTable (p : ℚ) (n_low : ℤ) (k : ℕ) : ℚ :=
  probNonzeroGrad (n_low + k) p * infoGain p

/-- The `-1e30` sentinel used by `_knapsack_dp` for unreachable states. -/
def negInf : ℚ := -(10 ^ 30)

/-- The `-1e29` threshold of `_knapsack_dp`: a state whose value is at most
this counts as unreachable. -/
def negThr : ℚ := -(10 ^ 29)

/-- The DP increment `inc = vi[k_extra] - vi[0] if k_extra > 0 else 0.0`. -/
def incr (vi : ℕ → ℚ) (k : ℕ) : ℚ :=
  if 0 < k then vi k - vi 0 else 0

/-- One candidate excess `k_extra` of the inner loop of `_knapsack_dp`:
skip an unreachable predecessor, otherwise keep the strictly better of the
running best and `dp[i-1][b-k] + inc`. -/
def bcStep (vi prev : ℕ → ℚ) (b : ℕ) (acc : ℚ × ℕ) (k : ℕ) : ℚ × ℕ :=
  let cand := prev (b - k)
  if cand ≤ negThr then acc
  else if acc.1 < cand + incr vi k then (cand + incr vi k, k) else acc

/-- Inner maximization of `_knapsack_dp`: scan excesses `0..kmax` in order,
skip unreachable predecessors, keep the first strict maximizer.  Returns
the pair `(dp[i][b], choice[i-1][b])`. -/
def bestChoice (vi : ℕ → ℚ) (prev : ℕ → ℚ) (b kmax : ℕ) : ℚ × ℕ :=
  (List.range (kmax + 1)).foldl (bcStep vi prev b) (prev b, 0)

/-- Row `i` of the DP table of `_knapsack_dp` (`dp[i][b]`). -/
def dpRow (vt : ℕ → ℕ → ℚ) (maxExtra : ℕ) : ℕ → ℕ → ℚ
  | 0 => fun b => if b = 0 then 0 else negInf
  | i + 1 => fun b =>
      (bestChoice (vt i) (dpRow vt maxExtra i) b (min b maxExtra)).1

/-- The recorded argmax `choice[i][b]` of `_knapsack_dp`. -/
def choiceAt (vt : ℕ → ℕ → ℚ) (maxExtra : ℕ) (i b : ℕ) : ℕ :=
  (bestChoice (vt i) (dpRow vt maxExtra i) b (min b maxExtra)).2

/-- Backtracking loop of `_knapsack_dp`: per-item excesses for items
`1..i`, in item order, starting from remaining excess budget `b`. -/
def backtrack (vt : ℕ → ℕ → ℚ) (maxExtra : ℕ) : ℕ → ℕ → List ℕ
  | 0, _ => []
  | i + 1, b =>
      let k := choiceAt vt maxExtra i b
      backtrack vt maxExtra i (b - k) ++ [k]

/-- The value tables `vt` of `_knapsack_dp`, one per item. -/
def vtOf (p : List ℚ) (n_low : ℤ) : ℕ → ℕ → ℚ :=
  fun i k => valueTable (p.getD i 0) n_low k

/-- Source `_knapsack_dp(p, total_budget, n_low, n_up)`.  The `B < 0`
branch returns `max(0, total_budget // M)` for every item (the source
reaches this branch only with `M ≥ 1`, because `allocate_with_extremes`
asserts `total_budget ≥ 0`); Python floor division is `Int.fdiv`. -/
def knapsackDP (p : List ℚ) (total_budget n_low n_up : ℤ) : List ℤ :=
  let M := p.length
  let B := total_budget - M * n_low
  if B < 0 then
    List.replicate M (max 0 (Int.fdiv total_budget M))
  else
    let maxExtra := min B.toNat (n_up - n_low).toNat
    (backtrack (vtOf p n_low) maxExtra M B.toNat).map (fun k : ℕ => n_low + (k : ℤ))

/-- The `eps = 1e-8` tolerance of `allocate_with_extremes`. -/
def epsQ : ℚ := 1 / 10 ^ 8

/-- Hard keys: `p ≤ eps`. -/
def isHard (q : ℚ) : Bool := decide (q ≤ epsQ)

/-- Easy keys: `p ≥ 1.0 - eps`. -/
def isEasy (q : ℚ) : Bool := decide (1 - epsQ ≤ q)

/-- Mid keys: neither hard nor easy. -/
def isMid (q : ℚ) : Bool := !isHard q && !isEasy q

/-- Source `np.clip` on a scalar: values below `lo` become `lo`, values
above `hi` become `hi`. -/
def clip (lo hi x : ℤ) : ℤ := min hi (max lo x)

/-- Step 2 of `allocate_with_extremes`: `alloc[idx_easy] = n_low` when
`easy_min_cover` is set, every other entry zero.  (The source guards this
store with `idx_easy.any()`, which does not change the result.) -/
def easyInit (p : List ℚ) (n_low : ℤ) (emc : Bool) : List ℤ :=
  p.map (fun q => if emc && isEasy q then n_low else 0)

/-- The scale-down branch: `np.floor(alloc * (total_budget / max(1, alloc.sum())))`. -/
def scaleDown (a : List ℤ) (tb : ℤ) : List ℤ :=
  a.map (fun x : ℤ => ⌊(x : ℚ) * ((tb : ℚ) / ((max 1 a.sum : ℤ) : ℚ))⌋)

/-- Masked store `alloc[idx_mid] = alloc_mid`: walk the keys, replacing
the entry at each mid position by the next value of `ms`. -/
def scatterMid : List ℚ → List ℤ → List ℤ → List ℤ
  | q :: p, a :: al, ms =>
      if isMid q then ms.headD 0 :: scatterMid p al ms.tail
      else a :: scatterMid p al ms
  | _, al, _ => al

/-- The mid-region DP call of `allocate_with_extremes`, guarded by
`idx_mid.any()`. -/
def midAlloc (p : List ℚ) (a : List ℤ) (bm n_low n_up : ℤ) : List ℤ :=
  if (p.filter (fun q => isMid q)).isEmpty then a
  else scatterMid p a (knapsackDP (p.filter (fun q => isMid q)) bm n_low n_up)

/-- Per-index share of the remainder over `nH` hard keys:
`remain // nH`, plus one for the first `remain % nH` hard positions. -/
def giveAmount (remain : ℤ) (nH : ℕ) (j : ℕ) : ℤ :=
  Int.fdiv remain nH + (if (j : ℤ) < Int.fmod remain nH then 1 else 0)

/-- Masked update `alloc[idx_hard] = np.clip(alloc[idx_hard] + give, n_low,
n_up)`, with `j` counting the hard positions already passed. -/
def hardDistribute (n_low n_up remain : ℤ) (nH : ℕ) :
    List ℚ → List ℤ → ℕ → List ℤ
  | q :: p, a :: al, j =>
      if isHard q then
        clip n_low n_up (a + giveAmount remain nH j) ::
          hardDistribute n_low n_up remain nH p al (j + 1)
      else a :: hardDistribute n_low n_up remain nH p al j
  | _, al, _ => al

/-- The hard-key remainder distribution of `allocate_with_extremes`,
guarded by `remain > 0 and idx_hard.any()`. -/
def hardAlloc (p : List ℚ) (a : List ℤ) (tb n_low n_up : ℤ) : List ℤ :=
  if 0 < tb - a.sum ∧ 0 < (p.filter (fun q => isHard q)).length then
    hardDistribute n_low n_up (tb - a.sum) (p.filter (fun q => isHard q)).length p a 0
  else a

/-- The final rounding-repair loop of `allocate_with_extremes`: a `for`
loop over the entries, breaking once `diff` reaches zero. -/
def repairList (n_low n_up sgn : ℤ) : List ℤ → ℤ → List ℤ
  | [], _ => []
  | a :: al, d =>
      if d = 0 then a :: al
      else
        let can := if 0 < sgn then n_up - a else a - n_low
        let take := min can d
        (a + sgn * take) :: repairList n_low n_up sgn al (d - take)

/-- The final-sanity step of `allocate_with_extremes`, guarded by
`diff != 0 and M > 0`. -/
def finalRepair (p : List ℚ) (a : List ℤ) (tb n_low n_up : ℤ) : List ℤ :=
  if tb - a.sum ≠ 0 ∧ 0 < p.length then
    repairList n_low n_up (if 0 < tb - a.sum then 1 else -1) a |tb - a.sum|
  else a

/-- Source `allocate_with_extremes`; the two `assert`s are modelled as
`none`. -/
def allocateWithExtremes (p : List ℚ) (total_budget n_low n_up : ℤ)
    (hard_fallback_share : ℚ) (easy_min_cover : Bool) : Option (List ℤ) :=
  if 0 ≤ total_budget ∧ 1 ≤ n_low ∧ n_low ≤ n_up then
    let alloc := easyInit p n_low easy_min_cover
    if total_budget - alloc.sum < 0 then some (scaleDown alloc total_budget)
    else
      let alloc1 := midAlloc p alloc (total_budget - alloc.sum) n_low n_up
      let alloc2 := hardAlloc p alloc1 total_budget n_low n_up
      some (finalRepair p alloc2 total_budget n_low n_up)
  else none

/-- State of `SuccessRateEstimator`: constructor parameters plus the
`_succ_fail_ema` dict, as a function to an optional pair. -/
structure SuccessRateEstimator where
  ema : ℚ
  alpha : ℚ
  beta : ℚ
  succFailEma : String → Option (ℚ × ℚ)

/-- The constructor of `SuccessRateEstimator`; the `0 < ema < 1` assert is
modelled as `none`. -/
def mkEstimator (ema alpha beta : ℚ) : Option SuccessRateEstimator :=
  if 0 < ema ∧ ema < 1 then some ⟨ema, alpha, beta, fun _ => none⟩ else none

/-- Lookup in the per-call aggregation dict (an insertion-ordered
association list). -/
def lookupA : List (String × ℕ × ℕ) → String → Option (ℕ × ℕ)
  | [], _ => none
  | (v, ab) :: m, u => if v = u then some ab else lookupA m u

/-- One `step_aggr` update of `update_batch`: add one success (`s = 1`) or
one failure to key `u`, inserting the key if absent. -/
def updStep : List (String × ℕ × ℕ) → String → ℕ → List (String × ℕ × ℕ)
  | [], u, s => [(u, if s = 1 then (1, 0) else (0, 1))]
  | (v, ab) :: m, u, s =>
      if v = u then
        (v, if s = 1 then (ab.1 + 1, ab.2) else (ab.1, ab.2 + 1)) :: m
      else (v, ab) :: updStep m u s

/-- The per-call aggregation loop of `update_batch`, with the coercion
`s = int(s > 0)`. -/
def stepAggr (pairs : List (String × ℚ)) : List (String × ℕ × ℕ) :=
  pairs.foldl (fun m us => updStep m us.1 (if 0 < us.2 then 1 else 0)) []

/-- The EMA-update loop of `update_batch`. -/
def applyEMA (ema : ℚ) (aggr : List (String × ℕ × ℕ))
    (f : String → Option (ℚ × ℚ)) : String → Option (ℚ × ℚ) :=
  aggr.foldl
    (fun g uab =>
      let old := (g uab.1).getD (0, 0)
      let sa := ema * old.1 + (1 - ema) * (uab.2.1 : ℚ)
      let sb := ema * old.2 + (1 - ema) * (uab.2.2 : ℚ)
      fun v => if v = uab.1 then some (sa, sb) else g v)
    f

/-- Source `update_batch`; the equal-length assert is modelled as `none`. -/
def updateBatch (e : SuccessRateEstimator) (uids : List String)
    (successes : List ℚ) : Option SuccessRateEstimator :=
  if uids.length = successes.length then
    some { e with
      succFailEma :=
        applyEMA e.ema (stepAggr (uids.zip successes)) e.succFailEma }
  else none

/-- Source `estimate`. -/
def estimate (e : SuccessRateEstimator) (uids : List String) : List ℚ :=
  uids.map
    (fun u =>
      let sf := (e.succFailEma u).getD (0, 0)
      (e.alpha + sf.1) / (e.alpha + e.beta + sf.1 + sf.2 + 1 / 10 ^ 9))

/-- Number of outcomes in a call that land on key `u` and count as
successes (value strictly greater than zero). -/
def scP (ps : List (String × ℚ)) (u : String) : ℕ :=
  (ps.filter (fun x => x.1 == u)).countP (fun x => decide (0 < x.2))

/-- Number of outcomes in a call that land on key `u` and count as
failures. -/
def fcP (ps : List (String × ℚ)) (u : String) : ℕ :=
  (ps.filter (fun x => x.1 == u)).countP (fun x => !decide (0 < x.2))

/-- Total objective `Σ value(p_i, N_i)` of an allocation. -/
def objective : List ℚ → List ℤ → ℚ
  | q :: p, n :: ns => probNonzeroGrad n q * infoGain q + objective p ns
  | _, _ => 0

/-- Integer allocations of length `M` with entries in `[n_low, n_up]`
summing to `B`. -/
def allocFeasible (M : ℕ) (n_low n_up B : ℤ) (ns : List ℤ) : Prop :=
  ns.length = M ∧ (∀ x ∈ ns, n_low ≤ x ∧ x ≤ n_up) ∧ ns.sum = B

/-- Marginal gain of an excess vector, item `j` scored by table `vt j`. -/
def gainFrom (vt : ℕ → ℕ → ℚ) : ℕ → List ℕ → ℚ
  | _, [] => 0
  | j, k :: ks => incr (vt j) k + gainFrom vt (j + 1) ks

/-- A concrete estimator state with the default constructor arguments
(`ema = 0.7`, `alpha = beta = 1`) and an empty dict. -/
def e0 : SuccessRateEstimator := ⟨7 / 10, 1, 1, fun _ => none⟩

/-! Basic facts about the sentinels and the DP increment. -/

lemma negInf_le_negThr : negInf ≤ negThr := by norm_num [negInf, negThr]

lemma negThr_lt_zero : negThr < 0 := by norm_num [negThr]

lemma negInf_lt_zero : negInf < 0 := by norm_num [negInf]

lemma incr_zero (vi : ℕ → ℚ) : incr vi 0 = 0 := by simp [incr]

lemma incr_eq (vi : ℕ → ℚ) (k : ℕ) : incr vi k = vi k - vi 0 := by
  rcases Nat.eq_zero_or_pos k with h | h
  · simp [incr, h]
  · simp [incr, h]

lemma incr_nonneg (vi : ℕ → ℚ) (k : ℕ) (h : vi 0 ≤ vi k) : 0 ≤ incr vi k := by
  rw [incr_eq]; linarith

/-! Facts about the inner maximization fold of `_knapsack_dp`. -/

lemma bcStep_def (vi prev : ℕ → ℚ) (b : ℕ) (acc : ℚ × ℕ) (k : ℕ) :
    bcStep vi prev b acc k =
      if prev (b - k) ≤ negThr then acc
      else if acc.1 < prev (b - k) + incr vi k then (prev (b - k) + incr vi k, k)
      else acc := rfl

lemma bcStep_fst_le (vi prev : ℕ → ℚ) (b : ℕ) (acc : ℚ × ℕ) (k : ℕ) :
    acc.1 ≤ (bcStep vi prev b acc k).1 := by
  rw [bcStep_def]
  split_ifs with h1 h2
  · exact le_refl _
  · exact le_of_lt h2
  · exact le_refl _

lemma foldl_bcStep_fst_le (vi prev : ℕ → ℚ) (b : ℕ) :
    ∀ (L : List ℕ) (acc : ℚ × ℕ), acc.1 ≤ (L.foldl (bcStep vi prev b) acc).1 := by
  intro L
  induction L with
  | nil => intro acc; exact le_refl _
  | cons h t ih =>
      intro acc
      exact le_trans (bcStep_fst_le vi prev b acc h) (ih (bcStep vi prev b acc h))

lemma foldl_bcStep_ge (vi prev : ℕ → ℚ) (b : ℕ) :
    ∀ (L : List ℕ) (acc : ℚ × ℕ) (k : ℕ), k ∈ L → ¬ prev (b - k) ≤ negThr →
      prev (b - k) + incr vi k ≤ (L.foldl (bcStep vi prev b) acc).1 := by
  intro L
  induction L with
  | nil => intro acc k hk; exact absurd hk (List.not_mem_nil k)
  | cons h t ih =>
      intro acc k hk hthr
      rcases List.mem_cons.mp hk with rfl | hk'
      · refine le_trans ?_ (foldl_bcStep_fst_le vi prev b t (bcStep vi prev b acc k))
        rw [bcStep_def, if_neg hthr]
        split_ifs with hlt
        · exact le_refl _
        · exact le_of_not_lt hlt
      · exact ih (bcStep vi prev b acc h) k hk' hthr

lemma foldl_bcStep_spec (vi prev : ℕ → ℚ) (b : ℕ) :
    ∀ (L : List ℕ) (acc : ℚ × ℕ),
      L.foldl (bcStep vi prev b) acc = acc ∨
        ∃ k ∈ L, ¬ prev (b - k) ≤ negThr ∧
          L.foldl (bcStep vi prev b) acc = (prev (b - k) + incr vi k, k) := by
  intro L
  induction L with
  | nil => intro acc; exact Or.inl rfl
  | cons h t ih =>
      intro acc
      by_cases hthr : prev (b - h) ≤ negThr
      · have hstep : bcStep vi prev b acc h = acc := by rw [bcStep_def, if_pos hthr]
        rcases ih acc with h1 | ⟨k, hk, hthr', heq⟩
        · left; rw [List.foldl_cons, hstep, h1]
        · right
          exact ⟨k, List.mem_cons_of_mem h hk, hthr', by rw [List.foldl_cons, hstep, heq]⟩
      · by_cases hlt : acc.1 < prev (b - h) + incr vi h
        · have hstep : bcStep vi prev b acc h = (prev (b - h) + incr vi h, h) := by
            rw [bcStep_def, if_neg hthr, if_pos hlt]
          rcases ih (bcStep vi prev b acc h) with h1 | ⟨k, hk, hthr', heq⟩
          · right
            exact ⟨h, List.mem_cons_self h t, hthr, by rw [List.foldl_cons, h1, hstep]⟩
          · right
            exact ⟨k, List.mem_cons_of_mem h hk, hthr', by rw [List.foldl_cons, heq]⟩
        · have hstep : bcStep vi prev b acc h = acc := by
            rw [bcStep_def, if_neg hthr, if_neg hlt]
          rcases ih acc with h1 | ⟨k, hk, hthr', heq⟩
          · left; rw [List.foldl_cons, hstep, h1]
          · right
            exact ⟨k, List.mem_cons_of_mem h hk, hthr', by rw [List.foldl_cons, hstep, heq]⟩

lemma bestChoice_fst_ge_init (vi prev : ℕ → ℚ) (b kmax : ℕ) :
    prev b ≤ (bestChoice vi prev b kmax).1 :=
  foldl_bcStep_fst_le vi prev b _ _

lemma bestChoice_fst_ge (vi prev : ℕ → ℚ) (b kmax k : ℕ) (hk : k ≤ kmax)
    (hthr : ¬ prev (b - k) ≤ negThr) :
    prev (b - k) + incr vi k ≤ (bestChoice vi prev b kmax).1 :=
  foldl_bcStep_ge vi prev b _ _ k (List.mem_range.mpr (Nat.lt_succ_of_le hk)) hthr

lemma bestChoice_spec (vi prev : ℕ → ℚ) (b kmax : ℕ) :
    bestChoice vi prev b kmax = (prev b, 0) ∨
      ∃ k ≤ kmax, ¬ prev (b - k) ≤ negThr ∧
        bestChoice vi prev b kmax = (prev (b - k) + incr vi k, k) := by
  rcases foldl_bcStep_spec vi prev b (List.range (kmax + 1)) (prev b, 0) with h1 | ⟨k, hk, h2, h3⟩
  · exact Or.inl h1
  · exact Or.inr ⟨k, Nat.lt_succ_iff.mp (List.mem_range.mp hk), h2, h3⟩

/-! Reachability and value invariants of the DP table. -/

lemma sum_le_length_mul (l : List ℕ) (c : ℕ) (h : ∀ x ∈ l, x ≤ c) :
    l.sum ≤ l.length * c := by
  induction l with
  | nil => simp
  | cons a t ih =>
      have ha := h a (List.mem_cons_self a t)
      have ht := ih (fun x hx => h x (List.mem_cons_of_mem a hx))
      simp only [List.sum_cons, List.length_cons]
      calc a + t.sum ≤ c + t.length * c := by omega
      _ = (t.length + 1) * c := by ring

lemma dpRow_succ_def (vt : ℕ → ℕ → ℚ) (mx i b : ℕ) :
    dpRow vt mx (i + 1) b = (bestChoice (vt i) (dpRow vt mx i) b (min b mx)).1 := rfl

lemma dpRow_unreachable (vt : ℕ → ℕ → ℚ) (mx : ℕ) :
    ∀ i b, i * mx < b → dpRow vt mx i b = negInf := by
  intro i
  induction i with
  | zero =>
      intro b hb
      simp only [Nat.zero_mul] at hb
      simp only [dpRow]
      rw [if_neg (by omega)]
  | succ i ih =>
      intro b hb
      rw [dpRow_succ_def]
      rcases bestChoice_spec (vt i) (dpRow vt mx i) b (min b mx) with h | ⟨k, hk, hthr, heq⟩
      · rw [h]
        apply ih
        calc i * mx ≤ (i + 1) * mx := Nat.mul_le_mul_right mx (Nat.le_succ i)
        _ < b := hb
      · exfalso
        apply hthr
        have hkmx : k ≤ mx := le_trans hk (min_le_right _ _)
        have hlt : i * mx < b - k := by
          have hsm : (i + 1) * mx = i * mx + mx := Nat.succ_mul i mx
          omega
        rw [ih _ hlt]
        exact negInf_le_negThr

lemma dpRow_nonneg (vt : ℕ → ℕ → ℚ) (mx : ℕ) (Hm : ∀ i k, vt i 0 ≤ vt i k) :
    ∀ i b, b ≤ i * mx → 0 ≤ dpRow vt mx i b := by
  intro i
  induction i with
  | zero =>
      intro b hb
      simp only [Nat.zero_mul, Nat.le_zero] at hb
      simp [dpRow, hb]
  | succ i ih =>
      intro b hb
      have hsub : b - min b mx ≤ i * mx := by
        rcases le_total b mx with h | h
        · simp [min_eq_left h]
        · rw [min_eq_right h]
          have hsm : (i + 1) * mx = i * mx + mx := Nat.succ_mul i mx
          omega
      have hc : 0 ≤ dpRow vt mx i (b - min b mx) := ih _ hsub
      have hthr : ¬ dpRow vt mx i (b - min b mx) ≤ negThr := by
        intro hcon
        have := negThr_lt_zero
        linarith
      have hge := bestChoice_fst_ge (vt i) (dpRow vt mx i) b (min b mx) (min b mx)
        (le_refl _) hthr
      have hincr : 0 ≤ incr (vt i) (min b mx) := incr_nonneg _ _ (Hm i (min b mx))
      rw [dpRow_succ_def]
      linarith

lemma dpRow_step (vt : ℕ → ℕ → ℚ) (mx : ℕ) (Hm : ∀ i k, vt i 0 ≤ vt i k)
    (i b : ℕ) (hb : b ≤ (i + 1) * mx) :
    choiceAt vt mx i b ≤ min b mx ∧ b - choiceAt vt mx i b ≤ i * mx ∧
      dpRow vt mx (i + 1) b =
        dpRow vt mx i (b - choiceAt vt mx i b) + incr (vt i) (choiceAt vt mx i b) := by
  rcases bestChoice_spec (vt i) (dpRow vt mx i) b (min b mx) with h | ⟨k, hk, hthr, heq⟩
  · have hch : choiceAt vt mx i b = 0 := by unfold choiceAt; rw [h]
    have hdp : dpRow vt mx (i + 1) b = dpRow vt mx i b := by rw [dpRow_succ_def, h]
    have hble : b ≤ i * mx := by
      by_contra hcon
      push_neg at hcon
      have h1 := dpRow_unreachable vt mx i b hcon
      have h2 := dpRow_nonneg vt mx Hm (i + 1) b hb
      rw [hdp, h1] at h2
      have := negInf_lt_zero
      linarith
    refine ⟨?_, ?_, ?_⟩
    · rw [hch]; exact Nat.zero_le _
    · rw [hch, Nat.sub_zero]; exact hble
    · rw [hch, Nat.sub_zero, incr_zero, add_zero, hdp]
  · have hch : choiceAt vt mx i b = k := by unfold choiceAt; rw [heq]
    have hdp : dpRow vt mx (i + 1) b = dpRow vt mx i (b - k) + incr (vt i) k := by
      rw [dpRow_succ_def, heq]
    have hble : b - k ≤ i * mx := by
      by_contra hcon
      push_neg at hcon
      rw [dpRow_unreachable vt mx i _ hcon] at hthr
      exact hthr negInf_le_negThr
    rw [hch]
    exact ⟨hk, hble, hdp⟩

lemma backtrack_length (vt : ℕ → ℕ → ℚ) (mx : ℕ) :
    ∀ i b, (backtrack vt mx i b).length = i := by
  intro i
  induction i with
  | zero => intro b; simp [backtrack]
  | succ i ih => intro b; simp [backtrack, ih]

lemma gainFrom_append_single (vt : ℕ → ℕ → ℚ) :
    ∀ (ks : List ℕ) (j k : ℕ),
      gainFrom vt j (ks ++ [k]) = gainFrom vt j ks + incr (vt (j + ks.length)) k := by
  intro ks
  induction ks with
  | nil => intro j k; simp [gainFrom]
  | cons a t ih =>
      intro j k
      show incr (vt j) a + gainFrom vt (j + 1) (t ++ [k]) =
        incr (vt j) a + gainFrom vt (j + 1) t + incr (vt (j + (t.length + 1))) k
      rw [ih (j + 1) k]
      have hj : j + 1 + t.length = j + (t.length + 1) := by omega
      rw [hj, add_assoc]

lemma backtrack_spec (vt : ℕ → ℕ → ℚ) (mx : ℕ) (Hm : ∀ i k, vt i 0 ≤ vt i k) :
    ∀ i b, b ≤ i * mx →
      (∀ k ∈ backtrack vt mx i b, k ≤ mx) ∧ (backtrack vt mx i b).sum = b ∧
        gainFrom vt 0 (backtrack vt mx i b) = dpRow vt mx i b := by
  intro i
  induction i with
  | zero =>
      intro b hb
      simp only [Nat.zero_mul, Nat.le_zero] at hb
      subst hb
      refine ⟨by simp [backtrack], by simp [backtrack], ?_⟩
      simp [backtrack, gainFrom, dpRow]
  | succ i ih =>
      intro b hb
      obtain ⟨hk, hble, hdp⟩ := dpRow_step vt mx Hm i b hb
      obtain ⟨ih1, ih2, ih3⟩ := ih (b - choiceAt vt mx i b) hble
      have hbt : backtrack vt mx (i + 1) b =
          backtrack vt mx i (b - choiceAt vt mx i b) ++ [choiceAt vt mx i b] := rfl
      have hkleb : choiceAt vt mx i b ≤ b := le_trans hk (min_le_left _ _)
      have hkmx : choiceAt vt mx i b ≤ mx := le_trans hk (min_le_right _ _)
      refine ⟨?_, ?_, ?_⟩
      · intro x hx
        rw [hbt] at hx
        rcases List.mem_append.mp hx with hx | hx
        · exact ih1 x hx
        · rw [List.mem_singleton.mp hx]; exact hkmx
      · rw [hbt, List.sum_append]
        simp only [List.sum_cons, List.sum_nil, add_zero]
        omega
      · rw [hbt, gainFrom_append_single, ih3, backtrack_length]
        simp only [Nat.zero_add]
        exact hdp.symm

lemma dp_ub (vt : ℕ → ℕ → ℚ) (mx : ℕ) (Hm : ∀ i k, vt i 0 ≤ vt i k) :
    ∀ (i : ℕ) (ks : List ℕ) (b : ℕ), ks.length = i → (∀ k ∈ ks, k ≤ mx) →
      ks.sum = b → gainFrom vt 0 ks ≤ dpRow vt mx i b := by
  intro i
  induction i with
  | zero =>
      intro ks b hlen hble hsum
      have hnil : ks = [] := List.length_eq_zero.mp hlen
      subst hnil
      simp only [List.sum_nil] at hsum
      subst hsum
      simp [gainFrom, dpRow]
  | succ i ih =>
      intro ks b hlen hble hsum
      have hne : ks ≠ [] := by
        intro h
        rw [h] at hlen
        simp at hlen
      obtain ⟨xs, k, rfl⟩ : ∃ xs k, ks = xs ++ [k] :=
        ⟨ks.dropLast, ks.getLast hne, (List.dropLast_append_getLast hne).symm⟩
      have hxlen : xs.length = i := by
        simp only [List.length_append, List.length_cons, List.length_nil] at hlen
        omega
      have hksum : xs.sum + k = b := by
        simpa [List.sum_append] using hsum
      have hkmx : k ≤ mx := hble k (by simp)
      have hxble : ∀ x ∈ xs, x ≤ mx := fun x hx => hble x (List.mem_append_left _ hx)
      have hxsum_le : xs.sum ≤ i * mx := by
        calc xs.sum ≤ xs.length * mx := sum_le_length_mul xs mx hxble
        _ = i * mx := by rw [hxlen]
      have hih : gainFrom vt 0 xs ≤ dpRow vt mx i (b - k) := by
        apply ih xs (b - k) hxlen hxble
        omega
      have hreach : ¬ dpRow vt mx i (b - k) ≤ negThr := by
        have h0 : 0 ≤ dpRow vt mx i (b - k) :=
          dpRow_nonneg vt mx Hm i (b - k) (by omega)
        intro hcon
        have := negThr_lt_zero
        linarith
      have hge := bestChoice_fst_ge (vt i) (dpRow vt mx i) b (min b mx) k
        (le_min (by omega) hkmx) hreach
      have hgain : gainFrom vt 0 (xs ++ [k]) = gainFrom vt 0 xs + incr (vt i) k := by
        rw [gainFrom_append_single, hxlen]
        simp only [Nat.zero_add]
      rw [hgain, dpRow_succ_def]
      linarith

/-! Monotonicity and nonnegativity of the value model. -/

lemma infoGain_nonneg (p : ℚ) : 0 ≤ infoGain p := by
  unfold infoGain
  split_ifs with h
  · exact le_refl 0
  · push_neg at h
    obtain ⟨h0, h1⟩ := h
    have h1p : 0 ≤ 1 - p := by linarith
    positivity

lemma probNonzeroGrad_nonneg (N : ℤ) (p : ℚ) : 0 ≤ probNonzeroGrad N p := by
  unfold probNonzeroGrad
  split_ifs with h
  · exact le_refl 0
  · push_neg at h
    obtain ⟨h0', h1', hN'⟩ := h
    have hn1 : 1 ≤ N.toNat := by omega
    have hp : p ^ N.toNat ≤ p ^ 1 :=
      pow_le_pow_of_le_one (le_of_lt h0') (le_of_lt h1') hn1
    have hq : (1 - p) ^ N.toNat ≤ (1 - p) ^ 1 :=
      pow_le_pow_of_le_one (by linarith) (by linarith) hn1
    rw [pow_one] at hp hq
    linarith

lemma probNonzeroGrad_mono (N1 N2 : ℤ) (p : ℚ) (h : N1 ≤ N2) :
    probNonzeroGrad N1 p ≤ probNonzeroGrad N2 p := by
  by_cases hp : p ≤ 0 ∨ 1 ≤ p
  · have e1 : probNonzeroGrad N1 p = 0 := by
      unfold probNonzeroGrad
      rw [if_pos (by tauto)]
    have e2 : probNonzeroGrad N2 p = 0 := by
      unfold probNonzeroGrad
      rw [if_pos (by tauto)]
    rw [e1, e2]
  · push_neg at hp
    obtain ⟨h0', h1'⟩ := hp
    by_cases hN1 : N1 ≤ 0
    · have e1 : probNonzeroGrad N1 p = 0 := by
        unfold probNonzeroGrad
        rw [if_pos (by tauto)]
      rw [e1]
      exact probNonzeroGrad_nonneg N2 p
    · have hN2 : ¬ N2 ≤ 0 := by omega
      have e1 : probNonzeroGrad N1 p = 1 - p ^ N1.toNat - (1 - p) ^ N1.toNat := by
        unfold probNonzeroGrad
        rw [if_neg (by push_neg; exact ⟨h0', h1', by omega⟩)]
      have e2 : probNonzeroGrad N2 p = 1 - p ^ N2.toNat - (1 - p) ^ N2.toNat := by
        unfold probNonzeroGrad
        rw [if_neg (by push_neg; exact ⟨h0', h1', by omega⟩)]
      rw [e1, e2]
      have hle : N1.toNat ≤ N2.toNat := by omega
      have hp2 : p ^ N2.toNat ≤ p ^ N1.toNat :=
        pow_le_pow_of_le_one (le_of_lt h0') (le_of_lt h1') hle
      have hq2 : (1 - p) ^ N2.toNat ≤ (1 - p) ^ N1.toNat :=
        pow_le_pow_of_le_one (by linarith) (by linarith) hle
      linarith

lemma valueTable_mono (q : ℚ) (n_low : ℤ) (k1 k2 : ℕ) (h : k1 ≤ k2) :
    valueTable q n_low k1 ≤ valueTable q n_low k2 := by
  unfold valueTable
  apply mul_le_mul_of_nonneg_right _ (infoGain_nonneg q)
  apply probNonzeroGrad_mono
  omega

lemma vtOf_base_le (p : List ℚ) (n_low : ℤ) (i k : ℕ) :
    vtOf p n_low i 0 ≤ vtOf p n_low i k :=
  valueTable_mono (p.getD i 0) n_low 0 k (Nat.zero_le k)

/-! Exactness of `_knapsack_dp` on feasible budgets. -/

lemma knapsackDP_eq_dp (p : List ℚ) (tb n_low n_up : ℤ)
    (hb1 : (p.length : ℤ) * n_low ≤ tb) :
    knapsackDP p tb n_low n_up =
      (backtrack (vtOf p n_low)
          (min (tb - (p.length : ℤ) * n_low).toNat (n_up - n_low).toNat)
          p.length (tb - (p.length : ℤ) * n_low).toNat).map
        (fun k : ℕ => n_low + (k : ℤ)) := by
  simp only [knapsackDP]
  rw [if_neg (by omega)]

lemma budget_le_mul_mx (M : ℕ) (tb n_low n_up : ℤ) (h2 : n_low ≤ n_up)
    (hb1 : (M : ℤ) * n_low ≤ tb) (hb2 : tb ≤ (M : ℤ) * n_up) :
    (tb - (M : ℤ) * n_low).toNat ≤
      M * min (tb - (M : ℤ) * n_low).toNat (n_up - n_low).toNat := by
  rcases le_or_lt (tb - (M : ℤ) * n_low).toNat (n_up - n_low).toNat with h | h
  · rw [min_eq_left h]
    rcases Nat.eq_zero_or_pos M with hM | hM
    · subst hM
      simp only [Nat.cast_zero, zero_mul] at hb1 hb2
      have : tb = 0 := le_antisymm hb2 hb1
      simp [this]
    · exact Nat.le_mul_of_pos_left _ hM
  · rw [min_eq_right (le_of_lt h)]
    have hup : ((n_up - n_low).toNat : ℤ) = n_up - n_low := Int.toNat_of_nonneg (by omega)
    have hβ : ((tb - (M : ℤ) * n_low).toNat : ℤ) = tb - (M : ℤ) * n_low :=
      Int.toNat_of_nonneg (by omega)
    have hz : (tb - (M : ℤ) * n_low) ≤ (M : ℤ) * (n_up - n_low) := by ring_nf; ring_nf at hb2; omega
    have : ((tb - (M : ℤ) * n_low).toNat : ℤ) ≤ (M : ℤ) * ((n_up - n_low).toNat : ℤ) := by
      rw [hβ, hup]; exact hz
    exact_mod_cast this

lemma sum_map_add_cast (c : ℤ) :
    ∀ ks : List ℕ, (ks.map (fun k : ℕ => c + (k : ℤ))).sum = ks.length * c + ks.sum := by
  intro ks
  induction ks with
  | nil => simp
  | cons a t ih =>
      simp only [List.map_cons, List.sum_cons, List.length_cons, ih]
      push_cast
      ring

lemma knapsackDP_exact (p : List ℚ) (tb n_low n_up : ℤ)
    (h2 : n_low ≤ n_up) (hb1 : (p.length : ℤ) * n_low ≤ tb)
    (hb2 : tb ≤ (p.length : ℤ) * n_up) :
    allocFeasible p.length n_low n_up tb (knapsackDP p tb n_low n_up) := by
  have hβ : ((tb - (p.length : ℤ) * n_low).toNat : ℤ) = tb - (p.length : ℤ) * n_low :=
    Int.toNat_of_nonneg (by omega)
  have hυ : (((n_up - n_low).toNat) : ℤ) = n_up - n_low := Int.toNat_of_nonneg (by omega)
  obtain ⟨hbnd, hsum, _⟩ :=
    backtrack_spec (vtOf p n_low)
      (min (tb - (p.length : ℤ) * n_low).toNat (n_up - n_low).toNat)
      (vtOf_base_le p n_low) p.length (tb - (p.length : ℤ) * n_low).toNat
      (budget_le_mul_mx p.length tb n_low n_up h2 hb1 hb2)
  rw [knapsackDP_eq_dp p tb n_low n_up hb1]
  refine ⟨?_, ?_, ?_⟩
  · rw [List.length_map, backtrack_length]
  · intro x hx
    obtain ⟨k, hk, rfl⟩ := List.mem_map.mp hx
    have hkmx := hbnd k hk
    have hkυ : k ≤ (n_up - n_low).toNat := le_trans hkmx (min_le_right _ _)
    have : (k : ℤ) ≤ n_up - n_low := by
      rw [← hυ]; exact_mod_cast hkυ
    constructor
    · have : (0 : ℤ) ≤ (k : ℤ) := Int.natCast_nonneg k
      omega
    · omega
  · rw [sum_map_add_cast, backtrack_length]
    have hs : ((backtrack (vtOf p n_low)
        (min (tb - (p.length : ℤ) * n_low).toNat (n_up - n_low).toNat)
        p.length (tb - (p.length : ℤ) * n_low).toNat).sum : ℤ) =
        ((tb - (p.length : ℤ) * n_low).toNat : ℤ) := by exact_mod_cast hsum
    rw [hs, hβ]
    ring

/-! Relating the DP gain to the total objective of an allocation. -/

lemma gainFrom_vtOf_cons (q : ℚ) (p : List ℚ) (lo : ℤ) :
    ∀ (ks : List ℕ) (j : ℕ),
      gainFrom (vtOf (q :: p) lo) (j + 1) ks = gainFrom (vtOf p lo) j ks := by
  intro ks
  induction ks with
  | nil => intro j; rfl
  | cons k t ih =>
      intro j
      show incr (vtOf (q :: p) lo (j + 1)) k + gainFrom (vtOf (q :: p) lo) (j + 2) t =
        incr (vtOf p lo j) k + gainFrom (vtOf p lo) (j + 1) t
      rw [ih (j + 1)]
      have hvt : ∀ m, vtOf (q :: p) lo (j + 1) m = vtOf p lo j m := by
        intro m
        simp [vtOf, List.getD_cons_succ]
      simp only [incr, hvt]

lemma objective_split (lo : ℤ) :
    ∀ (p : List ℚ) (ks : List ℕ), ks.length = p.length →
      objective p (ks.map (fun k : ℕ => lo + (k : ℤ))) =
        gainFrom (vtOf p lo) 0 ks + objective p (List.replicate p.length lo) := by
  intro p
  induction p with
  | nil =>
      intro ks h
      have : ks = [] := List.length_eq_zero.mp (by simpa using h)
      subst this
      simp [objective, gainFrom]
  | cons q t ih =>
      intro ks h
      cases ks with
      | nil => simp at h
      | cons k ks' =>
          have hlen : ks'.length = t.length := by simpa using h
          have hih := ih ks' hlen
          have l2 : objective (q :: t) ((k :: ks').map (fun k : ℕ => lo + (k : ℤ))) =
              probNonzeroGrad (lo + (k : ℤ)) q * infoGain q +
                objective t (ks'.map (fun k : ℕ => lo + (k : ℤ))) := rfl
          have l4 : objective (q :: t) (List.replicate (q :: t).length lo) =
              probNonzeroGrad lo q * infoGain q +
                objective t (List.replicate t.length lo) := rfl
          have l5 : gainFrom (vtOf (q :: t) lo) 0 (k :: ks') =
              incr (vtOf (q :: t) lo 0) k + gainFrom (vtOf (q :: t) lo) 1 ks' := rfl
          have l6 : gainFrom (vtOf (q :: t) lo) 1 ks' = gainFrom (vtOf t lo) 0 ks' :=
            gainFrom_vtOf_cons q t lo ks' 0
          have l7 : incr (vtOf (q :: t) lo 0) k =
              probNonzeroGrad (lo + (k : ℤ)) q * infoGain q -
                probNonzeroGrad lo q * infoGain q := by
            rw [incr_eq]
            show valueTable q lo k - valueTable q lo 0 = _
            unfold valueTable
            norm_num
          rw [l2, l4, l5, l6, l7, hih]
          ring

lemma map_toNat_restore (lo : ℤ) :
    ∀ N : List ℤ, (∀ x ∈ N, lo ≤ x) →
      (N.map (fun n => (n - lo).toNat)).map (fun k : ℕ => lo + (k : ℤ)) = N := by
  intro N
  induction N with
  | nil => intro h; rfl
  | cons n t ih =>
      intro h
      have hn := h n (List.mem_cons_self n t)
      have hhead : lo + (((n - lo).toNat : ℕ) : ℤ) = n := by
        rw [Int.toNat_of_nonneg (by omega)]
        ring
      simp only [List.map_cons, hhead, List.cons.injEq]
      exact ⟨trivial, ih (fun x hx => h x (List.mem_cons_of_mem n hx))⟩

lemma sum_map_toNat (lo : ℤ) :
    ∀ N : List ℤ, (∀ x ∈ N, lo ≤ x) →
      ((N.map (fun n => (n - lo).toNat)).sum : ℤ) = N.sum - N.length * lo := by
  intro N
  induction N with
  | nil => intro h; simp
  | cons n t ih =>
      intro h
      have hn := h n (List.mem_cons_self n t)
      have iht := ih (fun x hx => h x (List.mem_cons_of_mem n hx))
      simp only [List.map_cons, List.sum_cons, List.length_cons]
      rw [Nat.cast_add, Int.toNat_of_nonneg (by omega), iht]
      push_cast
      ring

lemma knapsackDP_optimal (p : List ℚ) (tb n_low n_up : ℤ)
    (h2 : n_low ≤ n_up) (hb1 : (p.length : ℤ) * n_low ≤ tb)
    (hb2 : tb ≤ (p.length : ℤ) * n_up) :
    ∀ N, allocFeasible p.length n_low n_up tb N →
      objective p N ≤ objective p (knapsackDP p tb n_low n_up) := by
  intro N hN
  obtain ⟨hlen, hbnd, hsum⟩ := hN
  have hβ : ((tb - (p.length : ℤ) * n_low).toNat : ℤ) = tb - (p.length : ℤ) * n_low :=
    Int.toNat_of_nonneg (by omega)
  have hυ : (((n_up - n_low).toNat) : ℤ) = n_up - n_low := Int.toNat_of_nonneg (by omega)
  obtain ⟨hbbnd, hbsum, hbgain⟩ :=
    backtrack_spec (vtOf p n_low)
      (min (tb - (p.length : ℤ) * n_low).toNat (n_up - n_low).toNat)
      (vtOf_base_le p n_low) p.length (tb - (p.length : ℤ) * n_low).toNat
      (budget_le_mul_mx p.length tb n_low n_up h2 hb1 hb2)
  have hobjR : objective p (knapsackDP p tb n_low n_up) =
      dpRow (vtOf p n_low)
          (min (tb - (p.length : ℤ) * n_low).toNat (n_up - n_low).toNat)
          p.length (tb - (p.length : ℤ) * n_low).toNat +
        objective p (List.replicate p.length n_low) := by
    rw [knapsackDP_eq_dp p tb n_low n_up hb1,
      objective_split n_low p _ (backtrack_length _ _ _ _), hbgain]
  have hks'len : (N.map (fun n => (n - n_low).toNat)).length = p.length := by
    rw [List.length_map, hlen]
  have hks'sumZ : ((N.map (fun n => (n - n_low).toNat)).sum : ℤ) =
      tb - (p.length : ℤ) * n_low := by
    rw [sum_map_toNat n_low N (fun x hx => (hbnd x hx).1), hsum, hlen]
  have hks'sum : (N.map (fun n => (n - n_low).toNat)).sum =
      (tb - (p.length : ℤ) * n_low).toNat := by
    have : ((N.map (fun n => (n - n_low).toNat)).sum : ℤ) =
        ((tb - (p.length : ℤ) * n_low).toNat : ℤ) := by rw [hks'sumZ, hβ]
    exact_mod_cast this
  have hks'mx : ∀ k ∈ N.map (fun n => (n - n_low).toNat),
      k ≤ min (tb - (p.length : ℤ) * n_low).toNat (n_up - n_low).toNat := by
    intro k hk
    apply le_min
    · calc k ≤ (N.map (fun n => (n - n_low).toNat)).sum :=
          List.single_le_sum (fun x _ => Nat.zero_le x) k hk
      _ = (tb - (p.length : ℤ) * n_low).toNat := hks'sum
    · obtain ⟨n, hn, rfl⟩ := List.mem_map.mp hk
      have := (hbnd n hn).2
      exact Int.toNat_le_toNat (by omega)
  have hub := dp_ub (vtOf p n_low)
    (min (tb - (p.length : ℤ) * n_low).toNat (n_up - n_low).toNat)
    (vtOf_base_le p n_low) p.length (N.map (fun n => (n - n_low).toNat))
    (tb - (p.length : ℤ) * n_low).toNat hks'len hks'mx hks'sum
  have hobjN : objective p N =
      gainFrom (vtOf p n_low) 0 (N.map (fun n => (n - n_low).toNat)) +
        objective p (List.replicate p.length n_low) := by
    conv_lhs => rw [← map_toNat_restore n_low N (fun x hx => (hbnd x hx).1)]
    exact objective_split n_low p _ hks'len
  rw [hobjN, hobjR]
  linarith

/-! Support for budget monotonicity: bumping one entry of an allocation. -/

lemma exists_get_lt_of_sum_lt (c : ℤ) :
    ∀ l : List ℤ, l.sum < l.length * c → ∃ j, ∃ hj : j < l.length, l.get ⟨j, hj⟩ < c := by
  intro l
  induction l with
  | nil => intro h; simp at h
  | cons a s ih =>
      intro h
      by_cases ha : a < c
      · exact ⟨0, by simp, ha⟩
      · push_neg at ha
        have hs : s.sum < s.length * c := by
          simp only [List.sum_cons, List.length_cons] at h
          push_cast at h
          nlinarith
        obtain ⟨j, hj, hlt⟩ := ih hs
        exact ⟨j + 1, by simpa using hj, hlt⟩

lemma sum_set_succ :
    ∀ (l : List ℤ) (j : ℕ) (hj : j < l.length),
      (l.set j (l.get ⟨j, hj⟩ + 1)).sum = l.sum + 1 := by
  intro l
  induction l with
  | nil => intro j hj; simp at hj
  | cons a s ih =>
      intro j hj
      cases j with
      | zero =>
          show ((a + 1) :: s).sum = (a :: s).sum + 1
          simp only [List.sum_cons]
          ring
      | succ j' =>
          have hj' : j' < s.length := by simpa using hj
          show (a :: s.set j' (s.get ⟨j', hj'⟩ + 1)).sum = (a :: s).sum + 1
          simp only [List.sum_cons]
          rw [ih j' hj']
          ring

lemma objective_le_set_succ (p : List ℚ) :
    ∀ (l : List ℤ) (j : ℕ) (hj : j < l.length),
      objective p l ≤ objective p (l.set j (l.get ⟨j, hj⟩ + 1)) := by
  induction p with
  | nil =>
      intro l j hj
      rcases l with _ | ⟨a, s⟩
      · simp at hj
      · cases j with
        | zero => exact le_refl _
        | succ j' => exact le_refl _
  | cons q t ih =>
      intro l j hj
      rcases l with _ | ⟨a, s⟩
      · simp at hj
      · cases j with
        | zero =>
            show probNonzeroGrad a q * infoGain q + objective t s ≤
              probNonzeroGrad (a + 1) q * infoGain q + objective t s
            have hm := probNonzeroGrad_mono a (a + 1) q (by omega)
            have hg := infoGain_nonneg q
            have := mul_le_mul_of_nonneg_right hm hg
            linarith
        | succ j' =>
            have hj' : j' < s.length := by simpa using hj
            show probNonzeroGrad a q * infoGain q +
                objective t s ≤
              probNonzeroGrad a q * infoGain q +
                objective t (s.set j' (s.get ⟨j', hj'⟩ + 1))
            exact add_le_add_left (ih s j' hj') _

/-! Stage lemmas for `allocate_with_extremes`. -/

lemma map_const_of_forall {α β : Type} (p : List α) (f : α → β) (c : β)
    (h : ∀ q ∈ p, f q = c) : p.map f = List.replicate p.length c := by
  induction p with
  | nil => rfl
  | cons a t ih =>
      simp only [List.map_cons, List.length_cons, List.replicate_succ]
      rw [h a (List.mem_cons_self a t), ih (fun q hq => h q (List.mem_cons_of_mem a hq))]

lemma sum_replicate_int (n : ℕ) (c : ℤ) : (List.replicate n c).sum = n * c := by
  rw [List.sum_replicate, nsmul_eq_mul]

lemma sum_le_length_mul_int (l : List ℤ) (c : ℤ) (h : ∀ x ∈ l, x ≤ c) :
    l.sum ≤ (l.length : ℤ) * c := by
  induction l with
  | nil => simp
  | cons a t ih =>
      have ha := h a (List.mem_cons_self a t)
      have ht := ih (fun x hx => h x (List.mem_cons_of_mem a hx))
      simp only [List.sum_cons, List.length_cons]
      push_cast
      nlinarith

lemma easyInit_length (p : List ℚ) (lo : ℤ) (emc : Bool) :
    (easyInit p lo emc).length = p.length := List.length_map _ _

lemma easyInit_of_no_easy (p : List ℚ) (lo : ℤ) (emc : Bool)
    (h : ∀ q ∈ p, isEasy q = false) :
    easyInit p lo emc = List.replicate p.length 0 := by
  unfold easyInit
  apply map_const_of_forall
  intro q hq
  rw [h q hq]
  simp

lemma easyInit_of_all_easy (p : List ℚ) (lo : ℤ)
    (h : ∀ q ∈ p, isEasy q = true) :
    easyInit p lo true = List.replicate p.length lo := by
  unfold easyInit
  apply map_const_of_forall
  intro q hq
  rw [h q hq]
  simp

lemma easyInit_mem (p : List ℚ) (lo : ℤ) (emc : Bool) :
    ∀ x ∈ easyInit p lo emc, x = lo ∨ x = 0 := by
  intro x hx
  obtain ⟨q, _, rfl⟩ := List.mem_map.mp hx
  split_ifs
  · exact Or.inl rfl
  · exact Or.inr rfl

lemma scatterMid_length : ∀ (p : List ℚ) (a ms : List ℤ),
    (scatterMid p a ms).length = a.length := by
  intro p
  induction p with
  | nil => intro a ms; rfl
  | cons q t ih =>
      intro a ms
      cases a with
      | nil => rfl
      | cons x al =>
          show (scatterMid (q :: t) (x :: al) ms).length = al.length + 1
          unfold scatterMid
          split_ifs
          · simp [ih]
          · simp [ih]

lemma scatterMid_all_mid : ∀ (p : List ℚ) (a ms : List ℤ),
    (∀ q ∈ p, isMid q = true) → a.length = p.length → ms.length = p.length →
      scatterMid p a ms = ms := by
  intro p
  induction p with
  | nil =>
      intro a ms _ ha hms
      have : a = [] := List.length_eq_zero.mp ha
      have hms' : ms = [] := List.length_eq_zero.mp hms
      subst this; subst hms'; rfl
  | cons q t ih =>
      intro a ms hmid ha hms
      cases a with
      | nil => simp at ha
      | cons x al =>
          cases ms with
          | nil => simp at hms
          | cons m ms' =>
              show scatterMid (q :: t) (x :: al) (m :: ms') = m :: ms'
              unfold scatterMid
              rw [if_pos (hmid q (List.mem_cons_self q t))]
              simp only [List.headD, List.tail, List.cons.injEq]
              exact ⟨trivial, ih al ms' (fun r hr => hmid r (List.mem_cons_of_mem q hr))
                (by simpa using ha) (by simpa using hms)⟩

lemma scatterMid_mem : ∀ (p : List ℚ) (a ms : List ℤ),
    ∀ x ∈ scatterMid p a ms, x ∈ a ∨ x ∈ ms ∨ x = 0 := by
  intro p
  induction p with
  | nil => intro a ms x hx; exact Or.inl hx
  | cons q t ih =>
      intro a ms x hx
      cases a with
      | nil => exact Or.inl hx
      | cons y al =>
          unfold scatterMid at hx
          split_ifs at hx with hm
          · rcases List.mem_cons.mp hx with rfl | hx'
            · cases ms with
              | nil => exact Or.inr (Or.inr rfl)
              | cons m ms' => exact Or.inr (Or.inl (List.mem_cons_self m ms'))
            · rcases ih al ms.tail x hx' with h | h | h
              · exact Or.inl (List.mem_cons_of_mem y h)
              · exact Or.inr (Or.inl (List.mem_of_mem_tail h))
              · exact Or.inr (Or.inr h)
          · rcases List.mem_cons.mp hx with rfl | hx'
            · exact Or.inl (List.mem_cons_self x al)
            · rcases ih al ms x hx' with h | h | h
              · exact Or.inl (List.mem_cons_of_mem y h)
              · exact Or.inr (Or.inl h)
              · exact Or.inr (Or.inr h)

lemma knapsackDP_length (p : List ℚ) (tb lo hi : ℤ) :
    (knapsackDP p tb lo hi).length = p.length := by
  simp only [knapsackDP]
  split_ifs
  · exact List.length_replicate _ _
  · rw [List.length_map, backtrack_length]

lemma choiceAt_le (vt : ℕ → ℕ → ℚ) (mx i b : ℕ) : choiceAt vt mx i b ≤ min b mx := by
  rcases bestChoice_spec (vt i) (dpRow vt mx i) b (min b mx) with h | ⟨k, hk, _, heq⟩
  · unfold choiceAt; rw [h]; exact Nat.zero_le _
  · unfold choiceAt; rw [heq]; exact hk

lemma backtrack_le_mx (vt : ℕ → ℕ → ℚ) (mx : ℕ) :
    ∀ i b, ∀ k ∈ backtrack vt mx i b, k ≤ mx := by
  intro i
  induction i with
  | zero => intro b k hk; simp [backtrack] at hk
  | succ i ih =>
      intro b k hk
      have hbt : backtrack vt mx (i + 1) b =
          backtrack vt mx i (b - choiceAt vt mx i b) ++ [choiceAt vt mx i b] := rfl
      rw [hbt] at hk
      rcases List.mem_append.mp hk with h | h
      · exact ih _ k h
      · rw [List.mem_singleton.mp h]
        exact le_trans (choiceAt_le vt mx i b) (min_le_right _ _)

lemma knapsackDP_mem_bounds (p : List ℚ) (tb lo hi : ℤ)
    (h1 : 1 ≤ lo) (h2 : lo ≤ hi) (hM : 1 ≤ p.length) (htb : 0 ≤ tb) :
    ∀ x ∈ knapsackDP p tb lo hi, 0 ≤ x ∧ x ≤ hi := by
  intro x hx
  simp only [knapsackDP] at hx
  split_ifs at hx with hB
  · have hx' : x = max 0 (Int.fdiv tb p.length) := List.eq_of_mem_replicate hx
    subst hx'
    constructor
    · exact le_max_left 0 _
    · have hMpos : (0 : ℤ) < (p.length : ℤ) := by exact_mod_cast hM
      have hfd : Int.fdiv tb (p.length : ℤ) = tb / (p.length : ℤ) :=
        Int.fdiv_eq_ediv tb (le_of_lt hMpos)
      have hlt : tb / (p.length : ℤ) < lo := by
        rw [Int.ediv_lt_iff_lt_mul hMpos]
        nlinarith
      rw [max_le_iff, hfd]
      constructor
      · omega
      · omega
  · obtain ⟨k, hk, rfl⟩ := List.mem_map.mp hx
    have hυ : (((hi - lo).toNat) : ℤ) = hi - lo := Int.toNat_of_nonneg (by omega)
    constructor
    · have : (0 : ℤ) ≤ (k : ℤ) := Int.natCast_nonneg k
      omega
    · have hble := backtrack_le_mx (vtOf p lo)
        (min (tb - (p.length : ℤ) * lo).toNat (hi - lo).toNat) p.length
        (tb - (p.length : ℤ) * lo).toNat k hk
      have hkυ : k ≤ (hi - lo).toNat := le_trans hble (min_le_right _ _)
      have : (k : ℤ) ≤ hi - lo := by rw [← hυ]; exact_mod_cast hkυ
      omega

lemma clip_le (lo hi x : ℤ) : clip lo hi x ≤ hi := min_le_left hi _

lemma le_clip (lo hi x : ℤ) (h : lo ≤ hi) : lo ≤ clip lo hi x :=
  le_min h (le_max_left lo x)

lemma clip_eq_self (lo hi x : ℤ) (h1 : lo ≤ x) (h2 : x ≤ hi) : clip lo hi x = x := by
  unfold clip
  rw [max_eq_right h1, min_eq_right h2]

lemma hardDistribute_length (lo hi r : ℤ) (nH : ℕ) :
    ∀ (p : List ℚ) (a : List ℤ) (j : ℕ),
      (hardDistribute lo hi r nH p a j).length = a.length := by
  intro p
  induction p with
  | nil => intro a j; rfl
  | cons q t ih =>
      intro a j
      cases a with
      | nil => rfl
      | cons x al =>
          show (hardDistribute lo hi r nH (q :: t) (x :: al) j).length = al.length + 1
          unfold hardDistribute
          split_ifs
          · simp [ih]
          · simp [ih]

lemma hardDistribute_mem (lo hi r : ℤ) (nH : ℕ) (hlohi : lo ≤ hi) :
    ∀ (p : List ℚ) (a : List ℤ) (j : ℕ),
      ∀ x ∈ hardDistribute lo hi r nH p a j, x ∈ a ∨ (lo ≤ x ∧ x ≤ hi) := by
  intro p
  induction p with
  | nil => intro a j x hx; exact Or.inl hx
  | cons q t ih =>
      intro a j x hx
      cases a with
      | nil => exact Or.inl hx
      | cons y al =>
          unfold hardDistribute at hx
          split_ifs at hx with hq
          · rcases List.mem_cons.mp hx with rfl | hx'
            · exact Or.inr ⟨le_clip lo hi _ hlohi, clip_le lo hi _⟩
            · rcases ih al (j + 1) x hx' with h | h
              · exact Or.inl (List.mem_cons_of_mem y h)
              · exact Or.inr h
          · rcases List.mem_cons.mp hx with rfl | hx'
            · exact Or.inl (List.mem_cons_self x al)
            · rcases ih al j x hx' with h | h
              · exact Or.inl (List.mem_cons_of_mem y h)
              · exact Or.inr h

lemma hardDistribute_all_hard_zero (lo hi r : ℤ) (nH : ℕ) :
    ∀ (p : List ℚ) (j : ℕ), (∀ q ∈ p, isHard q = true) →
      hardDistribute lo hi r nH p (List.replicate p.length 0) j =
        (List.range p.length).map (fun i => clip lo hi (giveAmount r nH (j + i))) := by
  intro p
  induction p with
  | nil => intro j _; rfl
  | cons q t ih =>
      intro j hhard
      show hardDistribute lo hi r nH (q :: t) (0 :: List.replicate t.length 0) j = _
      unfold hardDistribute
      rw [if_pos (hhard q (List.mem_cons_self q t))]
      rw [ih (j + 1) (fun x hx => hhard x (List.mem_cons_of_mem q hx))]
      rw [List.length_cons, List.range_succ_eq_map, List.map_cons, List.map_map]
      simp only [zero_add, Nat.add_zero, List.cons.injEq]
      constructor
      · trivial
      · apply List.map_congr_left
        intro i _
        show clip lo hi (giveAmount r nH (j + 1 + i)) = clip lo hi (giveAmount r nH (j + (i + 1)))
        have hji : j + 1 + i = j + (i + 1) := by omega
        rw [hji]

lemma repairList_length (lo hi sgn : ℤ) :
    ∀ (a : List ℤ) (d : ℤ), (repairList lo hi sgn a d).length = a.length := by
  intro a
  induction a with
  | nil => intro d; rfl
  | cons x al ih =>
      intro d
      show (repairList lo hi sgn (x :: al) d).length = al.length + 1
      unfold repairList
      split_ifs
      · rfl
      · simp [ih]
      · simp [ih]

lemma repairList_cons_zero (lo hi sgn y : ℤ) (al : List ℤ) :
    repairList lo hi sgn (y :: al) 0 = y :: al := by
  unfold repairList
  rw [if_pos rfl]

lemma repairList_cons_pos (lo hi y d : ℤ) (al : List ℤ) (hd : d ≠ 0) :
    repairList lo hi 1 (y :: al) d =
      (y + min (hi - y) d) :: repairList lo hi 1 al (d - min (hi - y) d) := by
  show (if d = 0 then y :: al
    else
      (y + 1 * min (if (0 : ℤ) < 1 then hi - y else y - lo) d) ::
        repairList lo hi 1 al
          (d - min (if (0 : ℤ) < 1 then hi - y else y - lo) d)) = _
  rw [if_neg hd, if_pos (show (0 : ℤ) < 1 by norm_num), one_mul]

lemma repairList_incr_le (lo hi : ℤ) :
    ∀ (a : List ℤ) (d : ℤ), (∀ x ∈ a, x ≤ hi) →
      ∀ x ∈ repairList lo hi 1 a d, x ≤ hi := by
  intro a
  induction a with
  | nil => intro d _ x hx; simp [repairList] at hx
  | cons y al ih =>
      intro d hle x hx
      by_cases hd : d = 0
      · subst hd
        rw [repairList_cons_zero] at hx
        exact hle x hx
      · rw [repairList_cons_pos lo hi y d al hd] at hx
        rcases List.mem_cons.mp hx with rfl | hx'
        · have hy := hle y (List.mem_cons_self y al)
          have hmin : min (hi - y) d ≤ hi - y := min_le_left _ _
          omega
        · exact ih _ (fun z hz => hle z (List.mem_cons_of_mem y hz)) x hx'

/-! Arithmetic of the even hard-key split. -/

lemma giveAmount_bounds (r : ℤ) (nH : ℕ) (j : ℕ) (lo hi : ℤ)
    (hpos : 0 < (nH : ℤ)) (hlo : (nH : ℤ) * lo ≤ r) (hhi : r ≤ (nH : ℤ) * hi) :
    lo ≤ giveAmount r nH j ∧ giveAmount r nH j ≤ hi := by
  have hfd : Int.fdiv r (nH : ℤ) = r / (nH : ℤ) := Int.fdiv_eq_ediv r (le_of_lt hpos)
  have hfm : Int.fmod r (nH : ℤ) = r % (nH : ℤ) := Int.fmod_eq_emod r (le_of_lt hpos)
  have hid : (nH : ℤ) * (r / (nH : ℤ)) + r % (nH : ℤ) = r := Int.ediv_add_emod r _
  have hm0 : 0 ≤ r % (nH : ℤ) := Int.emod_nonneg r (by omega)
  have hmlt : r % (nH : ℤ) < (nH : ℤ) := Int.emod_lt_of_pos r hpos
  have hqlo : lo ≤ r / (nH : ℤ) := by
    rw [Int.le_ediv_iff_mul_le hpos]
    nlinarith
  have hqhi : r / (nH : ℤ) ≤ hi := by nlinarith
  unfold giveAmount
  rw [hfd, hfm]
  split_ifs with hj
  · have hm1 : 1 ≤ r % (nH : ℤ) := by
      have : (0 : ℤ) ≤ (j : ℤ) := Int.natCast_nonneg j
      omega
    have hqhi' : r / (nH : ℤ) < hi := by nlinarith
    omega
  · omega

lemma sum_map_add_split (f g : ℕ → ℤ) :
    ∀ l : List ℕ, (l.map (fun j => f j + g j)).sum = (l.map f).sum + (l.map g).sum := by
  intro l
  induction l with
  | nil => simp
  | cons a t ih =>
      simp only [List.map_cons, List.sum_cons, ih]
      ring

lemma sum_indicator_range (M : ℕ) :
    ∀ r : ℤ, 0 ≤ r → r ≤ (M : ℤ) →
      ((List.range M).map (fun j : ℕ => if (j : ℤ) < r then (1 : ℤ) else 0)).sum = r := by
  induction M with
  | zero =>
      intro r h1 h2
      simp only [Nat.cast_zero] at h2
      simp only [List.range_zero, List.map_nil, List.sum_nil]
      omega
  | succ M ih =>
      intro r h1 h2
      rw [List.range_succ, List.map_append, List.sum_append]
      simp only [List.map_cons, List.map_nil, List.sum_cons, List.sum_nil, add_zero]
      by_cases hr : r ≤ (M : ℤ)
      · rw [ih r h1 hr, if_neg (by omega)]
        ring
      · have hrM : r = (M : ℤ) + 1 := by
          push_cast at h2
          omega
        rw [if_pos (by omega)]
        have hall : (List.range M).map (fun j : ℕ => if (j : ℤ) < r then (1 : ℤ) else 0) =
            List.replicate M 1 := by
          have hmc := map_const_of_forall (List.range M)
            (fun j : ℕ => if (j : ℤ) < r then (1 : ℤ) else 0) 1 ?_
          · rwa [List.length_range] at hmc
          · intro j hj
            have hjM : j < M := List.mem_range.mp hj
            show (if (j : ℤ) < r then (1 : ℤ) else 0) = 1
            rw [if_pos (by rw [hrM]; omega)]
        rw [hall, sum_replicate_int]
        omega

lemma sum_give_range (M : ℕ) (r : ℤ) (hpos : 0 < (M : ℤ)) :
    ((List.range M).map (fun j => giveAmount r M j)).sum = r := by
  have hfd : Int.fdiv r (M : ℤ) = r / (M : ℤ) := Int.fdiv_eq_ediv r (le_of_lt hpos)
  have hfm : Int.fmod r (M : ℤ) = r % (M : ℤ) := Int.fmod_eq_emod r (le_of_lt hpos)
  have hid : (M : ℤ) * (r / (M : ℤ)) + r % (M : ℤ) = r := Int.ediv_add_emod r _
  have hm0 : 0 ≤ r % (M : ℤ) := Int.emod_nonneg r (by omega)
  have hmlt : r % (M : ℤ) < (M : ℤ) := Int.emod_lt_of_pos r hpos
  have hsplit : (List.range M).map (fun j => giveAmount r M j) =
      (List.range M).map (fun j : ℕ =>
        (r / (M : ℤ)) + (if (j : ℤ) < r % (M : ℤ) then (1 : ℤ) else 0)) := by
    apply List.map_congr_left
    intro j _
    unfold giveAmount
    rw [hfd, hfm]
  rw [hsplit, sum_map_add_split]
  have hconst : (List.range M).map (fun _ : ℕ => r / (M : ℤ)) =
      List.replicate M (r / (M : ℤ)) := by
    have hmc := map_const_of_forall (List.range M) (fun _ : ℕ => r / (M : ℤ))
      (r / (M : ℤ)) (fun _ _ => rfl)
    rwa [List.length_range] at hmc
  rw [hconst, sum_replicate_int, sum_indicator_range M _ hm0 (le_of_lt hmlt)]
  omega

/-! Unfolding `allocate_with_extremes` along its two top-level branches. -/

lemma allocate_eq_stages (p : List ℚ) (tb n_low n_up : ℤ) (hfs : ℚ) (emc : Bool)
    (h : 0 ≤ tb ∧ 1 ≤ n_low ∧ n_low ≤ n_up)
    (hbm : ¬ tb - (easyInit p n_low emc).sum < 0) :
    allocateWithExtremes p tb n_low n_up hfs emc =
      some (finalRepair p
        (hardAlloc p
          (midAlloc p (easyInit p n_low emc) (tb - (easyInit p n_low emc).sum) n_low n_up)
          tb n_low n_up)
        tb n_low n_up) := by
  simp only [allocateWithExtremes]
  rw [if_pos h, if_neg hbm]

lemma allocate_eq_scale (p : List ℚ) (tb n_low n_up : ℤ) (hfs : ℚ) (emc : Bool)
    (h : 0 ≤ tb ∧ 1 ≤ n_low ∧ n_low ≤ n_up)
    (hbm : tb - (easyInit p n_low emc).sum < 0) :
    allocateWithExtremes p tb n_low n_up hfs emc =
      some (scaleDown (easyInit p n_low emc) tb) := by
  simp only [allocateWithExtremes]
  rw [if_pos h, if_pos hbm]

/-- Claim C1 (amended): when every probability lies strictly inside the mid
region `(eps, 1 - eps)` (rather than merely inside `(0, 1)`), `M ≥ 1`,
`1 ≤ n_low ≤ n_up` and `M * n_low ≤ total_budget ≤ M * n_up`,
`allocate_with_extremes` returns a vector of length `M` with all entries in
`[n_low, n_up]` summing exactly to `total_budget`. -/
theorem allocator_feasible_mid_region (p : List ℚ) (tb n_low n_up : ℤ)
    (hfs : ℚ) (emc : Bool)
    (hp : ∀ q ∈ p, epsQ < q ∧ q < 1 - epsQ) (hM : 1 ≤ p.length)
    (h1 : 1 ≤ n_low) (h2 : n_low ≤ n_up)
    (hb1 : (p.length : ℤ) * n_low ≤ tb) (hb2 : tb ≤ (p.length : ℤ) * n_up) :
    ∃ v, allocateWithExtremes p tb n_low n_up hfs emc = some v ∧
      allocFeasible p.length n_low n_up tb v := by
  have hM' : (1 : ℤ) ≤ (p.length : ℤ) := by exact_mod_cast hM
  have htb0 : 0 ≤ tb := by nlinarith
  have hno_easy : ∀ q ∈ p, isEasy q = false := by
    intro q hq
    exact decide_eq_false (not_le.mpr (hp q hq).2)
  have hno_hard : ∀ q ∈ p, isHard q = false := by
    intro q hq
    exact decide_eq_false (not_le.mpr (hp q hq).1)
  have hez : easyInit p n_low emc = List.replicate p.length 0 :=
    easyInit_of_no_easy p n_low emc hno_easy
  have hsum0 : (easyInit p n_low emc).sum = 0 := by
    rw [hez, sum_replicate_int]
    ring
  have hfeas := knapsackDP_exact p tb n_low n_up h2 hb1 hb2
  obtain ⟨hlen, hbnd, hsum⟩ := hfeas
  have hmid_all : ∀ q ∈ p, isMid q = true := by
    intro q hq
    unfold isMid
    rw [hno_easy q hq, hno_hard q hq]
    rfl
  have hfilter : p.filter (fun q => isMid q) = p :=
    List.filter_eq_self.mpr (fun q hq => hmid_all q hq)
  have hne : p ≠ [] := by
    intro hnil
    rw [hnil] at hM
    simp at hM
  have hmid : midAlloc p (easyInit p n_low emc) (tb - (easyInit p n_low emc).sum)
      n_low n_up = knapsackDP p tb n_low n_up := by
    unfold midAlloc
    rw [hfilter, hsum0, sub_zero]
    rw [if_neg (by simp [List.isEmpty_iff, hne])]
    rw [hez]
    exact scatterMid_all_mid p _ _ hmid_all (List.length_replicate _ _)
      (knapsackDP_length p tb n_low n_up)
  have hhard : hardAlloc p (knapsackDP p tb n_low n_up) tb n_low n_up =
      knapsackDP p tb n_low n_up := by
    unfold hardAlloc
    rw [if_neg]
    intro hcon
    rw [hsum] at hcon
    omega
  have hrep : finalRepair p (knapsackDP p tb n_low n_up) tb n_low n_up =
      knapsackDP p tb n_low n_up := by
    unfold finalRepair
    rw [if_neg]
    intro hcon
    rw [hsum] at hcon
    omega
  refine ⟨knapsackDP p tb n_low n_up, ?_, hlen, hbnd, hsum⟩
  rw [allocate_eq_stages p tb n_low n_up hfs emc ⟨htb0, h1, h2⟩ (by omega), hmid, hhard, hrep]

/-- Claim C2: for `M ≤ 5`, `n_up - n_low ≤ 5`, entries strictly in `(0,1)`
and a feasible budget `M * n_low ≤ B ≤ M * n_up`, the DP allocation is
feasible and its total objective value `Σ value(p_i, N_i)` is at least that
of every integer vector with entries in `[n_low, n_up]` summing to `B` —
i.e. it equals the brute-force maximum of the objective. -/
theorem knapsack_dp_bruteforce_equiv (p : List ℚ) (B n_low n_up : ℤ)
    (hM5 : p.length ≤ 5) (hU5 : n_up - n_low ≤ 5)
    (hp : ∀ q ∈ p, 0 < q ∧ q < 1) (h1 : 1 ≤ n_low) (h2 : n_low ≤ n_up)
    (hb1 : (p.length : ℤ) * n_low ≤ B) (hb2 : B ≤ (p.length : ℤ) * n_up) :
    allocFeasible p.length n_low n_up B (knapsackDP p B n_low n_up) ∧
      ∀ N, allocFeasible p.length n_low n_up B N →
        objective p N ≤ objective p (knapsackDP p B n_low n_up) :=
  ⟨knapsackDP_exact p B n_low n_up h2 hb1 hb2,
   knapsackDP_optimal p B n_low n_up h2 hb1 hb2⟩

/-- Claim C9: for entries strictly in `(0,1)` and a feasible budget
`M * n_low ≤ B < M * n_up`, raising the budget by one unit never decreases
the total objective value achieved by the DP allocation. -/
theorem objective_monotone_budget (p : List ℚ) (B n_low n_up : ℤ)
    (hp : ∀ q ∈ p, 0 < q ∧ q < 1)
    (hb1 : (p.length : ℤ) * n_low ≤ B) (hb2 : B < (p.length : ℤ) * n_up) :
    objective p (knapsackDP p B n_low n_up) ≤
      objective p (knapsackDP p (B + 1) n_low n_up) := by
  have hM : 1 ≤ p.length := by
    by_contra h
    push_neg at h
    have h0 : p.length = 0 := by omega
    rw [h0] at hb1 hb2
    simp only [Nat.cast_zero, zero_mul] at hb1 hb2
    omega
  have hM' : (0 : ℤ) < (p.length : ℤ) := by exact_mod_cast hM
  have h2 : n_low ≤ n_up := by nlinarith
  obtain ⟨hlen, hbnd, hsum⟩ := knapsackDP_exact p B n_low n_up h2 hb1 (le_of_lt hb2)
  have hvlt : (knapsackDP p B n_low n_up).sum <
      ((knapsackDP p B n_low n_up).length : ℤ) * n_up := by
    rw [hsum, hlen]
    exact hb2
  obtain ⟨j, hj, hjlt⟩ := exists_get_lt_of_sum_lt n_up (knapsackDP p B n_low n_up) hvlt
  have hNfeas : allocFeasible p.length n_low n_up (B + 1)
      ((knapsackDP p B n_low n_up).set j
        ((knapsackDP p B n_low n_up).get ⟨j, hj⟩ + 1)) := by
    refine ⟨?_, ?_, ?_⟩
    · rw [List.length_set, hlen]
    · intro x hx
      rcases List.mem_or_eq_of_mem_set hx with h | h
      · exact hbnd x h
      · subst h
        have hget := hbnd _ (List.get_mem (knapsackDP p B n_low n_up) j hj)
        omega
    · rw [sum_set_succ _ j hj, hsum]
  calc objective p (knapsackDP p B n_low n_up) ≤
      objective p ((knapsackDP p B n_low n_up).set j
        ((knapsackDP p B n_low n_up).get ⟨j, hj⟩ + 1)) :=
      objective_le_set_succ p _ j hj
  _ ≤ objective p (knapsackDP p (B + 1) n_low n_up) :=
      knapsackDP_optimal p (B + 1) n_low n_up h2 (by omega) (by omega) _ hNfeas

/-- Claim C3 (amended): with every probability at least `1 - eps` and
`easy_min_cover` enabled, every key receives exactly `n_low` when
`total_budget = M * n_low`; for other budgets the final repair loop or the
scale-down branch changes the easy keys away from `n_low` (see the
counterexample). -/
theorem easy_min_cover_exact_nlow (p : List ℚ) (tb n_low n_up : ℤ) (hfs : ℚ)
    (hp : ∀ q ∈ p, 1 - epsQ ≤ q) (h1 : 1 ≤ n_low) (h2 : n_low ≤ n_up)
    (htb : tb = (p.length : ℤ) * n_low) :
    allocateWithExtremes p tb n_low n_up hfs true =
      some (List.replicate p.length n_low) := by
  subst htb
  have htb0 : 0 ≤ (p.length : ℤ) * n_low :=
    mul_nonneg (Int.natCast_nonneg _) (by omega)
  have heasy : ∀ q ∈ p, isEasy q = true := fun q hq => decide_eq_true (hp q hq)
  have hez : easyInit p n_low true = List.replicate p.length n_low :=
    easyInit_of_all_easy p n_low heasy
  have hsum : (easyInit p n_low true).sum = (p.length : ℤ) * n_low := by
    rw [hez, sum_replicate_int]
  have hmid_none : ∀ q ∈ p, isMid q = false := by
    intro q hq
    unfold isMid
    rw [heasy q hq]
    simp
  have hfilter : p.filter (fun q => isMid q) = [] := by
    rw [List.filter_eq_nil_iff]
    intro q hq
    rw [hmid_none q hq]
    simp
  have hmid : midAlloc p (easyInit p n_low true)
      ((p.length : ℤ) * n_low - (easyInit p n_low true).sum) n_low n_up =
      easyInit p n_low true := by
    unfold midAlloc
    rw [hfilter]
    rfl
  have hhard : hardAlloc p (easyInit p n_low true) ((p.length : ℤ) * n_low)
      n_low n_up = easyInit p n_low true := by
    unfold hardAlloc
    rw [if_neg]
    intro hcon
    rw [hsum] at hcon
    omega
  have hrep : finalRepair p (easyInit p n_low true) ((p.length : ℤ) * n_low)
      n_low n_up = easyInit p n_low true := by
    unfold finalRepair
    rw [if_neg]
    intro hcon
    rw [hsum] at hcon
    omega
  rw [allocate_eq_stages p _ n_low n_up hfs true ⟨htb0, h1, h2⟩ (by omega),
    hmid, hhard, hrep, hez]

/-- Claim C5 (amended): the proportional scale-down `floor(count *
total_budget / assigned_sum)` runs only when the budget is short of the
already-assigned easy floor (with no easy keys the shortfall is handled by
the DP fallback and the repair loop instead — see the counterexample).
With all keys easy, `easy_min_cover` on, `M ≥ 1` and
`total_budget < M * n_low`, no error is raised, each entry becomes
`floor(n_low * total_budget / (M * n_low))`, and the sum may fall short of
`total_budget`. -/
theorem infeasible_budget_scaledown (p : List ℚ) (tb n_low n_up : ℤ) (hfs : ℚ)
    (hp : ∀ q ∈ p, 1 - epsQ ≤ q) (hM : 1 ≤ p.length)
    (h0 : 0 ≤ tb) (h1 : 1 ≤ n_low) (h2 : n_low ≤ n_up)
    (htb : tb < (p.length : ℤ) * n_low) :
    allocateWithExtremes p tb n_low n_up hfs true =
      some (List.replicate p.length
        ⌊(n_low : ℚ) * ((tb : ℚ) / (((p.length : ℤ) * n_low : ℤ) : ℚ))⌋) ∧
      (List.replicate p.length
        ⌊(n_low : ℚ) * ((tb : ℚ) / (((p.length : ℤ) * n_low : ℤ) : ℚ))⌋).sum ≤ tb := by
  have hM' : (1 : ℤ) ≤ (p.length : ℤ) := by exact_mod_cast hM
  have hMn : (1 : ℤ) ≤ (p.length : ℤ) * n_low := by nlinarith
  have heasy : ∀ q ∈ p, isEasy q = true := fun q hq => decide_eq_true (hp q hq)
  have hez : easyInit p n_low true = List.replicate p.length n_low :=
    easyInit_of_all_easy p n_low heasy
  have hsum : (easyInit p n_low true).sum = (p.length : ℤ) * n_low := by
    rw [hez, sum_replicate_int]
  have hscale : scaleDown (easyInit p n_low true) tb =
      List.replicate p.length
        ⌊(n_low : ℚ) * ((tb : ℚ) / (((p.length : ℤ) * n_low : ℤ) : ℚ))⌋ := by
    unfold scaleDown
    rw [hsum, max_eq_right hMn, hez, List.map_replicate]
  constructor
  · rw [allocate_eq_scale p tb n_low n_up hfs true ⟨h0, h1, h2⟩ (by omega), hscale]
  · rw [sum_replicate_int]
    have hMnQ : (0 : ℚ) < (((p.length : ℤ) * n_low : ℤ) : ℚ) := by
      exact_mod_cast lt_of_lt_of_le one_pos hMn
    have hfl : (⌊(n_low : ℚ) * ((tb : ℚ) / (((p.length : ℤ) * n_low : ℤ) : ℚ))⌋ : ℚ) ≤
        (n_low : ℚ) * ((tb : ℚ) / (((p.length : ℤ) * n_low : ℤ) : ℚ)) := Int.floor_le _
    have hMQ : (0 : ℚ) < ((p.length : ℤ) : ℚ) := by exact_mod_cast lt_of_lt_of_le one_pos hM'
    have hlowQ : (0 : ℚ) < ((n_low : ℤ) : ℚ) := by exact_mod_cast lt_of_lt_of_le one_pos h1
    have hval : (n_low : ℚ) * ((tb : ℚ) / (((p.length : ℤ) * n_low : ℤ) : ℚ)) =
        (tb : ℚ) / ((p.length : ℤ) : ℚ) := by
      push_cast
      field_simp
      ring
    have key : ((p.length : ℤ) : ℚ) *
        (⌊(n_low : ℚ) * ((tb : ℚ) / (((p.length : ℤ) * n_low : ℤ) : ℚ))⌋ : ℚ) ≤ (tb : ℚ) := by
      calc ((p.length : ℤ) : ℚ) * (⌊(n_low : ℚ) * ((tb : ℚ) / (((p.length : ℤ) * n_low : ℤ) : ℚ))⌋ : ℚ) ≤
          ((p.length : ℤ) : ℚ) * ((n_low : ℚ) * ((tb : ℚ) / (((p.length : ℤ) * n_low : ℤ) : ℚ))) :=
            mul_le_mul_of_nonneg_left hfl (le_of_lt hMQ)
      _ = (tb : ℚ) := by rw [hval]; field_simp
    exact_mod_cast key

/-- Claim C6 (amended): with every probability at most `eps`, `M ≥ 1` and a
feasible budget `M * n_low ≤ total_budget ≤ M * n_up` (the claim fails for
budgets outside this range, where clipping and the repair loop deform the
split — see the counterexample), the returned vector is exactly the
uniform-as-possible split `total_budget // M` plus one for the first
`total_budget % M` positions, and every entry lies in `[n_low, n_up]`. -/
theorem hard_uniform_split_feasible (p : List ℚ) (tb n_low n_up : ℤ)
    (hfs : ℚ) (emc : Bool)
    (hp : ∀ q ∈ p, q ≤ epsQ) (hM : 1 ≤ p.length)
    (h1 : 1 ≤ n_low) (h2 : n_low ≤ n_up)
    (hb1 : (p.length : ℤ) * n_low ≤ tb) (hb2 : tb ≤ (p.length : ℤ) * n_up) :
    allocateWithExtremes p tb n_low n_up hfs emc =
      some ((List.range p.length).map (fun j : ℕ =>
        Int.fdiv tb p.length + if (j : ℤ) < Int.fmod tb p.length then 1 else 0)) ∧
      ∀ x ∈ (List.range p.length).map (fun j : ℕ =>
          Int.fdiv tb p.length + if (j : ℤ) < Int.fmod tb p.length then 1 else 0),
        n_low ≤ x ∧ x ≤ n_up := by
  have hM' : (1 : ℤ) ≤ (p.length : ℤ) := by exact_mod_cast hM
  have hMpos : (0 : ℤ) < (p.length : ℤ) := by omega
  have htb0 : 0 ≤ tb := by nlinarith
  have htbpos : 0 < tb := by nlinarith
  have hepslt : epsQ < 1 - epsQ := by norm_num [epsQ]
  have hhard_all : ∀ q ∈ p, isHard q = true := fun q hq => decide_eq_true (hp q hq)
  have heasy_none : ∀ q ∈ p, isEasy q = false := by
    intro q hq
    exact decide_eq_false (not_le.mpr (lt_of_le_of_lt (hp q hq) hepslt))
  have hez : easyInit p n_low emc = List.replicate p.length 0 :=
    easyInit_of_no_easy p n_low emc heasy_none
  have hsum0 : (easyInit p n_low emc).sum = 0 := by
    rw [hez, sum_replicate_int]
    ring
  have hmid_none : ∀ q ∈ p, isMid q = false := by
    intro q hq
    unfold isMid
    rw [hhard_all q hq]
    simp
  have hfilterM : p.filter (fun q => isMid q) = [] := by
    rw [List.filter_eq_nil_iff]
    intro q hq
    rw [hmid_none q hq]
    simp
  have hfilterH : p.filter (fun q => isHard q) = p :=
    List.filter_eq_self.mpr (fun q hq => hhard_all q hq)
  have hmid : midAlloc p (easyInit p n_low emc)
      (tb - (easyInit p n_low emc).sum) n_low n_up = easyInit p n_low emc := by
    unfold midAlloc
    rw [hfilterM]
    rfl
  have hgb : ∀ j : ℕ, n_low ≤ giveAmount tb p.length j ∧ giveAmount tb p.length j ≤ n_up :=
    fun j => giveAmount_bounds tb p.length j n_low n_up hMpos hb1 hb2
  have hgive : ∀ j : ℕ, giveAmount tb p.length j =
      Int.fdiv tb p.length + if (j : ℤ) < Int.fmod tb p.length then 1 else 0 := fun j => rfl
  have hhard : hardAlloc p (easyInit p n_low emc) tb n_low n_up =
      (List.range p.length).map (fun j : ℕ =>
        Int.fdiv tb p.length + if (j : ℤ) < Int.fmod tb p.length then 1 else 0) := by
    unfold hardAlloc
    rw [hfilterH, hsum0, sub_zero]
    rw [if_pos ⟨htbpos, by omega⟩]
    rw [hez, hardDistribute_all_hard_zero n_low n_up tb p.length p 0 hhard_all]
    apply List.map_congr_left
    intro j _
    rw [Nat.zero_add, clip_eq_self n_low n_up _ (hgb j).1 (hgb j).2, hgive j]
  have hsumv : ((List.range p.length).map (fun j : ℕ =>
      Int.fdiv tb p.length + if (j : ℤ) < Int.fmod tb p.length then 1 else 0)).sum = tb := by
    have := sum_give_range p.length tb hMpos
    have hcong : (List.range p.length).map (fun j => giveAmount tb p.length j) =
        (List.range p.length).map (fun j : ℕ =>
          Int.fdiv tb p.length + if (j : ℤ) < Int.fmod tb p.length then 1 else 0) :=
      List.map_congr_left (fun j _ => hgive j)
    rw [← hcong]
    exact this
  have hrep : finalRepair p ((List.range p.length).map (fun j : ℕ =>
      Int.fdiv tb p.length + if (j : ℤ) < Int.fmod tb p.length then 1 else 0))
      tb n_low n_up = (List.range p.length).map (fun j : ℕ =>
      Int.fdiv tb p.length + if (j : ℤ) < Int.fmod tb p.length then 1 else 0) := by
    unfold finalRepair
    rw [if_neg]
    intro hcon
    rw [hsumv] at hcon
    omega
  constructor
  · rw [allocate_eq_stages p tb n_low n_up hfs emc ⟨htb0, h1, h2⟩ (by omega),
      hmid, hhard, hrep]
  · intro x hx
    obtain ⟨j, _, rfl⟩ := List.mem_map.mp hx
    rw [← hgive j]
    exact hgb j

/-- Claim C4 (amended): the final repair loop is a `for` loop over the `M`
entries, hence always bounded, but the implementation does not surface an
internal error when exactness cannot be restored: whenever
`total_budget > M * n_up` (including `M = 0` with a positive budget) the
call returns normally with a vector whose sum falls short of
`total_budget`. -/
theorem repair_bounded_returns_short_sum (p : List ℚ) (tb n_low n_up : ℤ)
    (hfs : ℚ) (emc : Bool)
    (h0 : 0 ≤ tb) (h1 : 1 ≤ n_low) (h2 : n_low ≤ n_up)
    (h4 : (p.length : ℤ) * n_up < tb) :
    ∃ v, allocateWithExtremes p tb n_low n_up hfs emc = some v ∧
      v.length = p.length ∧ v.sum < tb := by
  have hP0 : ∀ x ∈ easyInit p n_low emc, 0 ≤ x ∧ x ≤ n_up := by
    intro x hx
    rcases easyInit_mem p n_low emc x hx with rfl | rfl
    · omega
    · omega
  have hlen0 : (easyInit p n_low emc).length = p.length := easyInit_length p n_low emc
  have hsum0 : (easyInit p n_low emc).sum ≤ (p.length : ℤ) * n_up := by
    have hs := sum_le_length_mul_int (easyInit p n_low emc) n_up (fun x hx => (hP0 x hx).2)
    rwa [hlen0] at hs
  have hbm : ¬ tb - (easyInit p n_low emc).sum < 0 := by omega
  rcases Nat.eq_zero_or_pos p.length with hM0 | hMpos
  · have hpnil : p = [] := List.length_eq_zero.mp hM0
    subst hpnil
    have hez : easyInit [] n_low emc = [] := rfl
    have hmid : ∀ bm, midAlloc [] [] bm n_low n_up = [] := fun bm => rfl
    have hhard : hardAlloc [] [] tb n_low n_up = [] := by
      unfold hardAlloc
      rw [if_neg]
      rintro ⟨_, hcon⟩
      simp at hcon
    have hrep : finalRepair [] [] tb n_low n_up = [] := by
      unfold finalRepair
      rw [if_neg]
      rintro ⟨_, hcon⟩
      simp at hcon
    refine ⟨[], ?_, rfl, by simpa using h4⟩
    rw [allocate_eq_stages [] tb n_low n_up hfs emc ⟨h0, h1, h2⟩ hbm, hez]
    simp only [List.sum_nil]
    rw [hmid, hhard, hrep]
  · have hP1 : ∀ x ∈ midAlloc p (easyInit p n_low emc)
        (tb - (easyInit p n_low emc).sum) n_low n_up, 0 ≤ x ∧ x ≤ n_up := by
      intro x hx
      unfold midAlloc at hx
      split_ifs at hx with hempt
      · exact hP0 x hx
      · rcases scatterMid_mem p _ _ x hx with h | h | h
        · exact hP0 x h
        · have hmne : (p.filter (fun q => isMid q)) ≠ [] := by
            intro hnil
            rw [hnil] at hempt
            exact hempt rfl
          have hmlen : 1 ≤ (p.filter (fun q => isMid q)).length := by
            have := List.length_pos.mpr hmne
            omega
          exact knapsackDP_mem_bounds _ _ _ _ h1 h2 hmlen (by omega) x h
        · subst h
          omega
    have hlen1 : (midAlloc p (easyInit p n_low emc)
        (tb - (easyInit p n_low emc).sum) n_low n_up).length = p.length := by
      unfold midAlloc
      split_ifs
      · exact hlen0
      · rw [scatterMid_length, hlen0]
    have hP2 : ∀ x ∈ hardAlloc p (midAlloc p (easyInit p n_low emc)
        (tb - (easyInit p n_low emc).sum) n_low n_up) tb n_low n_up,
        0 ≤ x ∧ x ≤ n_up := by
      intro x hx
      unfold hardAlloc at hx
      split_ifs at hx
      · rcases hardDistribute_mem n_low n_up _ _ h2 p _ 0 x hx with h | h
        · exact hP1 x h
        · omega
      · exact hP1 x hx
    have hlen2 : (hardAlloc p (midAlloc p (easyInit p n_low emc)
        (tb - (easyInit p n_low emc).sum) n_low n_up) tb n_low n_up).length = p.length := by
      unfold hardAlloc
      split_ifs
      · rw [hardDistribute_length, hlen1]
      · exact hlen1
    have hsum2 : (hardAlloc p (midAlloc p (easyInit p n_low emc)
        (tb - (easyInit p n_low emc).sum) n_low n_up) tb n_low n_up).sum ≤
        (p.length : ℤ) * n_up := by
      have hs := sum_le_length_mul_int _ n_up (fun x hx => (hP2 x hx).2)
      rwa [hlen2] at hs
    have hdiff : 0 < tb - (hardAlloc p (midAlloc p (easyInit p n_low emc)
        (tb - (easyInit p n_low emc).sum) n_low n_up) tb n_low n_up).sum := by omega
    have hrep : finalRepair p (hardAlloc p (midAlloc p (easyInit p n_low emc)
        (tb - (easyInit p n_low emc).sum) n_low n_up) tb n_low n_up) tb n_low n_up =
        repairList n_low n_up 1 (hardAlloc p (midAlloc p (easyInit p n_low emc)
          (tb - (easyInit p n_low emc).sum) n_low n_up) tb n_low n_up)
          |tb - (hardAlloc p (midAlloc p (easyInit p n_low emc)
            (tb - (easyInit p n_low emc).sum) n_low n_up) tb n_low n_up).sum| := by
      unfold finalRepair
      rw [if_pos ⟨by omega, hMpos⟩, if_pos hdiff]
    have hPv : ∀ x ∈ repairList n_low n_up 1 (hardAlloc p (midAlloc p (easyInit p n_low emc)
        (tb - (easyInit p n_low emc).sum) n_low n_up) tb n_low n_up)
        |tb - (hardAlloc p (midAlloc p (easyInit p n_low emc)
          (tb - (easyInit p n_low emc).sum) n_low n_up) tb n_low n_up).sum|, x ≤ n_up :=
      repairList_incr_le n_low n_up _ _ (fun x hx => (hP2 x hx).2)
    have hlenv : (repairList n_low n_up 1 (hardAlloc p (midAlloc p (easyInit p n_low emc)
        (tb - (easyInit p n_low emc).sum) n_low n_up) tb n_low n_up)
        |tb - (hardAlloc p (midAlloc p (easyInit p n_low emc)
          (tb - (easyInit p n_low emc).sum) n_low n_up) tb n_low n_up).sum|).length =
        p.length := by
      rw [repairList_length, hlen2]
    refine ⟨_, ?_, hlenv, ?_⟩
    · rw [allocate_eq_stages p tb n_low n_up hfs emc ⟨h0, h1, h2⟩ hbm, hrep]
    · have hs := sum_le_length_mul_int _ n_up hPv
      rw [hlenv] at hs
      omega

/-! The per-call aggregation of `update_batch`. -/

lemma scP_cons (w : String) (v : ℚ) (ps : List (String × ℚ)) (u : String) :
    scP ((w, v) :: ps) u = (if w = u ∧ 0 < v then 1 else 0) + scP ps u := by
  unfold scP
  by_cases hw : w = u
  · rw [List.filter_cons_of_pos (by simp [hw])]
    by_cases hv : 0 < v
    · rw [List.countP_cons_of_pos _ _ (by simp [hv]), if_pos ⟨hw, hv⟩]
      omega
    · rw [List.countP_cons_of_neg _ _ (by simp [hv]), if_neg (by tauto)]
      omega
  · rw [List.filter_cons_of_neg (by simp [hw]), if_neg (by tauto)]
    omega

lemma fcP_cons (w : String) (v : ℚ) (ps : List (String × ℚ)) (u : String) :
    fcP ((w, v) :: ps) u = (if w = u ∧ ¬ 0 < v then 1 else 0) + fcP ps u := by
  unfold fcP
  by_cases hw : w = u
  · rw [List.filter_cons_of_pos (by simp [hw])]
    by_cases hv : 0 < v
    · rw [List.countP_cons_of_neg _ _ (by simp [hv]), if_neg (by tauto)]
      omega
    · rw [List.countP_cons_of_pos _ _ (by simp [hv]), if_pos ⟨hw, hv⟩]
      omega
  · rw [List.filter_cons_of_neg (by simp [hw]), if_neg (by tauto)]
    omega

lemma scP_eq_zero_of_not_mem (ps : List (String × ℚ)) (u : String)
    (h : u ∉ ps.map Prod.fst) : scP ps u = 0 ∧ fcP ps u = 0 := by
  have hfil : ps.filter (fun x => x.1 == u) = [] := by
    rw [List.filter_eq_nil_iff]
    intro a ha hcon
    have : a.1 = u := by simpa using hcon
    exact h (List.mem_map.mpr ⟨a, ha, this⟩)
  unfold scP fcP
  rw [hfil]
  simp

lemma updStep_lookup (u w : String) (s : ℕ) :
    ∀ m : List (String × ℕ × ℕ),
      lookupA (updStep m w s) u =
        if u = w then
          some (if s = 1 then
              (((lookupA m w).getD (0, 0)).1 + 1, ((lookupA m w).getD (0, 0)).2)
            else
              (((lookupA m w).getD (0, 0)).1, ((lookupA m w).getD (0, 0)).2 + 1))
        else lookupA m u := by
  intro m
  induction m with
  | nil =>
      by_cases hw : u = w
      · subst hw
        simp [updStep, lookupA]
      · simp [updStep, lookupA, hw, Ne.symm hw]
  | cons va m ih =>
      obtain ⟨x, ab⟩ := va
      by_cases hx : x = w
      · subst hx
        by_cases hu : u = x
        · subst hu
          simp [updStep, lookupA]
        · simp [updStep, lookupA, hu, Ne.symm hu]
      · by_cases hu : u = x
        · subst hu
          simp [updStep, lookupA, hx, Ne.symm hx]
        · simp [updStep, lookupA, hu, Ne.symm hu, hx, ih]

lemma stepAggr_foldl_lookup (u : String) :
    ∀ (ps : List (String × ℚ)) (m : List (String × ℕ × ℕ)),
      lookupA (ps.foldl (fun m us => updStep m us.1 (if 0 < us.2 then 1 else 0)) m) u =
        if u ∈ ps.map Prod.fst then
          some (((lookupA m u).getD (0, 0)).1 + scP ps u,
                ((lookupA m u).getD (0, 0)).2 + fcP ps u)
        else lookupA m u := by
  intro ps
  induction ps with
  | nil =>
      intro m
      simp [scP, fcP]
  | cons wv ps ih =>
      obtain ⟨w, v⟩ := wv
      intro m
      rw [List.foldl_cons, ih (updStep m w (if 0 < v then 1 else 0)),
        updStep_lookup u w _ m, scP_cons, fcP_cons]
      by_cases hw : u = w
      · subst hw
        have hmem' : u ∈ List.map Prod.fst ((u, v) :: ps) := List.mem_cons_self u _
        rw [if_pos hmem', if_pos rfl]
        have hite : (if (if 0 < v then 1 else 0) = 1 then
            (((lookupA m u).getD (0, 0)).1 + 1, ((lookupA m u).getD (0, 0)).2)
          else (((lookupA m u).getD (0, 0)).1, ((lookupA m u).getD (0, 0)).2 + 1)) =
            (((lookupA m u).getD (0, 0)).1 + (if u = u ∧ 0 < v then 1 else 0),
             ((lookupA m u).getD (0, 0)).2 + (if u = u ∧ ¬ 0 < v then 1 else 0)) := by
          by_cases hv : 0 < v
          · rw [if_pos (show (if 0 < v then 1 else 0) = 1 from by rw [if_pos hv]),
              if_pos (show u = u ∧ 0 < v from ⟨rfl, hv⟩),
              if_neg (show ¬ (u = u ∧ ¬ 0 < v) from fun hc => hc.2 hv)]
            simp
          · rw [if_neg (show ¬ (if 0 < v then 1 else 0) = 1 from by rw [if_neg hv]; omega),
              if_neg (show ¬ (u = u ∧ 0 < v) from fun hc => hv hc.2),
              if_pos (show u = u ∧ ¬ 0 < v from ⟨rfl, hv⟩)]
            simp
        rw [hite]
        by_cases hmem : u ∈ ps.map Prod.fst
        · rw [if_pos hmem]
          simp only [Option.getD_some, Option.some.injEq, Prod.mk.injEq]
          exact ⟨by omega, by omega⟩
        · rw [if_neg hmem]
          obtain ⟨hsc, hfc⟩ := scP_eq_zero_of_not_mem ps u hmem
          rw [hsc, hfc]
          simp only [Option.some.injEq, Prod.mk.injEq]
          exact ⟨by omega, by omega⟩
      · rw [if_neg hw,
          if_neg (show ¬ (w = u ∧ 0 < v) from fun hc => hw hc.1.symm),
          if_neg (show ¬ (w = u ∧ ¬ 0 < v) from fun hc => hw hc.1.symm)]
        have hmemiff : (u ∈ List.map Prod.fst ((w, v) :: ps)) ↔ (u ∈ ps.map Prod.fst) := by
          simp [hw]
        by_cases hmem : u ∈ ps.map Prod.fst
        · rw [if_pos hmem, if_pos (hmemiff.mpr hmem)]
          simp only [Option.some.injEq, Prod.mk.injEq]
          exact ⟨by omega, by omega⟩
        · rw [if_neg hmem, if_neg (fun hc => hmem (hmemiff.mp hc))]

lemma lookupA_mem : ∀ (m : List (String × ℕ × ℕ)) (u : String) (ab : ℕ × ℕ),
    lookupA m u = some ab → (u, ab) ∈ m := by
  intro m
  induction m with
  | nil => intro u ab h; simp [lookupA] at h
  | cons va m ih =>
      obtain ⟨v, cd⟩ := va
      intro u ab h
      unfold lookupA at h
      split_ifs at h with hv
      · subst hv
        rw [Option.some.injEq] at h
        subst h
        exact List.mem_cons_self _ _
      · exact List.mem_cons_of_mem _ (ih u ab h)

lemma lookupA_eq_none : ∀ (m : List (String × ℕ × ℕ)) (u : String),
    lookupA m u = none ↔ u ∉ m.map Prod.fst := by
  intro m
  induction m with
  | nil => intro u; simp [lookupA]
  | cons va m ih =>
      obtain ⟨v, cd⟩ := va
      intro u
      unfold lookupA
      by_cases hv : v = u
      · subst hv
        simp
      · rw [if_neg hv, ih u]
        simp [Ne.symm hv]

lemma updStep_keys (w : String) (s : ℕ) :
    ∀ m : List (String × ℕ × ℕ),
      (updStep m w s).map Prod.fst =
        if w ∈ m.map Prod.fst then m.map Prod.fst else m.map Prod.fst ++ [w] := by
  intro m
  induction m with
  | nil => simp [updStep]
  | cons va m ih =>
      obtain ⟨x, ab⟩ := va
      by_cases hx : x = w
      · subst hx
        simp [updStep]
      · have e : updStep ((x, ab) :: m) w s = (x, ab) :: updStep m w s := by
          show (if x = w then
              (x, if s = 1 then (ab.1 + 1, ab.2) else (ab.1, ab.2 + 1)) :: m
            else (x, ab) :: updStep m w s) = (x, ab) :: updStep m w s
          rw [if_neg hx]
        rw [e]
        simp only [List.map_cons, ih]
        by_cases hmem : w ∈ m.map Prod.fst
        · rw [if_pos hmem, if_pos (by simp [hmem])]
        · rw [if_neg hmem, if_neg (by simp [hmem, Ne.symm hx])]
          rfl

lemma updStep_keys_nodup (w : String) (s : ℕ) (m : List (String × ℕ × ℕ))
    (h : (m.map Prod.fst).Nodup) : ((updStep m w s).map Prod.fst).Nodup := by
  rw [updStep_keys]
  split_ifs with hmem
  · exact h
  · rw [List.nodup_append]
    exact ⟨h, List.nodup_singleton w, by simpa using hmem⟩

lemma stepAggr_keys_nodup :
    ∀ (ps : List (String × ℚ)) (m : List (String × ℕ × ℕ)),
      (m.map Prod.fst).Nodup →
        (((ps.foldl (fun m us => updStep m us.1 (if 0 < us.2 then 1 else 0)) m)).map
          Prod.fst).Nodup := by
  intro ps
  induction ps with
  | nil => intro m h; exact h
  | cons wv ps ih =>
      intro m h
      rw [List.foldl_cons]
      exact ih _ (updStep_keys_nodup wv.1 _ m h)

lemma applyEMA_not_mem (ema : ℚ) (u : String) :
    ∀ (aggr : List (String × ℕ × ℕ)) (f : String → Option (ℚ × ℚ)),
      u ∉ aggr.map Prod.fst → applyEMA ema aggr f u = f u := by
  intro aggr
  induction aggr with
  | nil => intro f _; rfl
  | cons wab aggr ih =>
      obtain ⟨w, ab⟩ := wab
      intro f hu
      have hw : ¬ u = w := by
        intro hc
        exact hu (by simp [hc])
      have hrest : u ∉ aggr.map Prod.fst := by
        intro hc
        exact hu (by simp [hc])
      unfold applyEMA
      rw [List.foldl_cons]
      have := ih (fun v => if v = w then
        some (ema * ((f w).getD (0, 0)).1 + (1 - ema) * (ab.1 : ℚ),
              ema * ((f w).getD (0, 0)).2 + (1 - ema) * (ab.2 : ℚ)) else f v) hrest
      unfold applyEMA at this
      rw [this]
      simp [hw]

lemma applyEMA_mem (ema : ℚ) (u : String) (ab : ℕ × ℕ) :
    ∀ (aggr : List (String × ℕ × ℕ)) (f : String → Option (ℚ × ℚ)),
      (aggr.map Prod.fst).Nodup → (u, ab) ∈ aggr →
        applyEMA ema aggr f u =
          some (ema * ((f u).getD (0, 0)).1 + (1 - ema) * (ab.1 : ℚ),
                ema * ((f u).getD (0, 0)).2 + (1 - ema) * (ab.2 : ℚ)) := by
  intro aggr
  induction aggr with
  | nil => intro f _ hmem; simp at hmem
  | cons wcd aggr ih =>
      obtain ⟨w, cd⟩ := wcd
      intro f hnd hmem
      have hnd' : (aggr.map Prod.fst).Nodup := by
        simp only [List.map_cons, List.nodup_cons] at hnd
        exact hnd.2
      have hwrest : w ∉ aggr.map Prod.fst := by
        simp only [List.map_cons, List.nodup_cons] at hnd
        exact hnd.1
      rcases List.mem_cons.mp hmem with heq | hmem'
      · rw [Prod.mk.injEq] at heq
        obtain ⟨hw, hcd⟩ := heq
        unfold applyEMA
        rw [List.foldl_cons]
        have hnotm : u ∉ aggr.map Prod.fst := by
          rw [hw]
          exact hwrest
        have happ := applyEMA_not_mem ema u aggr (fun v => if v = w then
          some (ema * ((f w).getD (0, 0)).1 + (1 - ema) * (cd.1 : ℚ),
                ema * ((f w).getD (0, 0)).2 + (1 - ema) * (cd.2 : ℚ)) else f v) hnotm
        unfold applyEMA at happ
        rw [happ]
        simp [hw, hcd]
      · have hw : ¬ u = w := by
          intro hc
          subst hc
          exact hwrest (List.mem_map.mpr ⟨(u, ab), hmem', rfl⟩)
        unfold applyEMA
        rw [List.foldl_cons]
        have := ih (fun v => if v = w then
          some (ema * ((f w).getD (0, 0)).1 + (1 - ema) * (cd.1 : ℚ),
                ema * ((f w).getD (0, 0)).2 + (1 - ema) * (cd.2 : ℚ)) else f v) hnd' hmem'
        unfold applyEMA at this
        rw [this]
        simp [hw]

lemma stepAggr_map_coerce :
    ∀ (ps : List (String × ℚ)) (m : List (String × ℕ × ℕ)),
      (ps.map (fun x => (x.1, if 0 < x.2 then (1 : ℚ) else 0))).foldl
          (fun m us => updStep m us.1 (if 0 < us.2 then 1 else 0)) m =
        ps.foldl (fun m us => updStep m us.1 (if 0 < us.2 then 1 else 0)) m := by
  intro ps
  induction ps with
  | nil => intro m; rfl
  | cons wv ps ih =>
      intro m
      obtain ⟨w, v⟩ := wv
      simp only [List.map_cons, List.foldl_cons]
      rw [ih]
      congr 2
      by_cases hv : 0 < v
      · rw [if_pos hv, if_pos hv, if_pos one_pos]
      · rw [if_neg hv, if_neg hv, if_neg (lt_irrefl (0 : ℚ))]

/-- Claim C7: `update_batch` with equal-length inputs groups the outcomes by
key within the call; a key appearing with `a` coerced successes and `b`
coerced failures has its stored pair updated from `(sa, sb)` — starting at
`(0, 0)` when the key was never seen — to
`(decay * sa + (1 - decay) * a, decay * sb + (1 - decay) * b)`, while keys
not mentioned in the call keep their stored pair unchanged. -/
theorem update_batch_grouped_ema (e : SuccessRateEstimator)
    (uids : List String) (vals : List ℚ) (h : uids.length = vals.length) :
    ∃ e₂, updateBatch e uids vals = some e₂ ∧
      (∀ u, u ∈ uids →
        e₂.succFailEma u = some
          (e.ema * (((e.succFailEma u).getD (0, 0)).1) +
            (1 - e.ema) * (scP (uids.zip vals) u : ℚ),
           e.ema * (((e.succFailEma u).getD (0, 0)).2) +
            (1 - e.ema) * (fcP (uids.zip vals) u : ℚ))) ∧
      (∀ u, u ∉ uids → e₂.succFailEma u = e.succFailEma u) := by
  refine ⟨⟨e.ema, e.alpha, e.beta,
      applyEMA e.ema (stepAggr (uids.zip vals)) e.succFailEma⟩, ?_, ?_, ?_⟩
  · unfold updateBatch
    rw [if_pos h]
  · intro u hu
    show applyEMA e.ema (stepAggr (uids.zip vals)) e.succFailEma u = _
    have hmemzip : u ∈ (uids.zip vals).map Prod.fst := by
      rw [List.map_fst_zip uids vals (le_of_eq h)]
      exact hu
    have hlook := stepAggr_foldl_lookup u (uids.zip vals) []
    rw [if_pos hmemzip] at hlook
    have hlook2 : lookupA (stepAggr (uids.zip vals)) u =
        some (scP (uids.zip vals) u, fcP (uids.zip vals) u) := by
      have h0 : lookupA (stepAggr (uids.zip vals)) u =
          some (0 + scP (uids.zip vals) u, 0 + fcP (uids.zip vals) u) := hlook
      simpa using h0
    have hmem := lookupA_mem _ u _ hlook2
    have hnd := stepAggr_keys_nodup (uids.zip vals) [] (by simp)
    exact applyEMA_mem e.ema u _ (stepAggr (uids.zip vals)) e.succFailEma hnd hmem
  · intro u hu
    show applyEMA e.ema (stepAggr (uids.zip vals)) e.succFailEma u = _
    have hmemzip : u ∉ (uids.zip vals).map Prod.fst := by
      rw [List.map_fst_zip uids vals (le_of_eq h)]
      exact hu
    have hlook := stepAggr_foldl_lookup u (uids.zip vals) []
    rw [if_neg hmemzip] at hlook
    have hnone : lookupA (stepAggr (uids.zip vals)) u = none := hlook
    have hnot : u ∉ (stepAggr (uids.zip vals)).map Prod.fst :=
      (lookupA_eq_none _ u).mp hnone
    exact applyEMA_not_mem e.ema u _ e.succFailEma hnot

/-- Claim C8 (amended): for a key never observed by `update_batch`,
`estimate` returns `alpha / (alpha + beta + 1e-9)` — the prior mean
perturbed by the `1e-9` regularizer in the denominator — rather than
exactly `alpha / (alpha + beta)` (see the counterexample). -/
theorem estimate_unseen_prior_eps (e : SuccessRateEstimator) (u : String)
    (h : e.succFailEma u = none) (uids : List String) (i : ℕ)
    (hi : i < uids.length) (hu : uids.getD i "" = u) :
    (estimate e uids).getD i 0 = e.alpha / (e.alpha + e.beta + 1 / 10 ^ 9) := by
  obtain ⟨x, hx⟩ : ∃ x, uids[i]? = some x := ⟨uids[i], List.getElem?_eq_getElem hi⟩
  have hxu : x = u := by
    rw [← hu, List.getD_eq_getElem?_getD, hx]
    rfl
  unfold estimate
  rw [List.getD_eq_getElem?_getD, List.getElem?_map, hx]
  show ((e.alpha + ((e.succFailEma x).getD (0, 0)).1) /
    (e.alpha + e.beta + ((e.succFailEma x).getD (0, 0)).1 +
      ((e.succFailEma x).getD (0, 0)).2 + 1 / 10 ^ 9)) = _
  rw [hxu, h]
  show (e.alpha + 0) / (e.alpha + e.beta + 0 + 0 + 1 / 10 ^ 9) = _
  rw [add_zero, add_zero, add_zero]

/-- Claim C10: `update_batch` accepts outcome values outside `{0, 1}`
without error on equal-length inputs, and coerces each outcome to a success
exactly when its value is strictly greater than zero: replacing every
outcome `v` by `if 0 < v then 1 else 0` leaves the result unchanged. -/
theorem update_batch_coercion (e : SuccessRateEstimator)
    (uids : List String) (vals : List ℚ) (h : uids.length = vals.length) :
    (updateBatch e uids vals).isSome = true ∧
      updateBatch e uids vals =
        updateBatch e uids (vals.map (fun v => if 0 < v then (1 : ℚ) else 0)) := by
  constructor
  · unfold updateBatch
    rw [if_pos h]
    rfl
  · have hlen2 : uids.length = (vals.map (fun v => if 0 < v then (1 : ℚ) else 0)).length := by
      rw [List.length_map]
      exact h
    unfold updateBatch
    rw [if_pos h, if_pos hlen2]
    have hzip : uids.zip (vals.map (fun v => if 0 < v then (1 : ℚ) else 0)) =
        (uids.zip vals).map (fun x => (x.1, if 0 < x.2 then (1 : ℚ) else 0)) := by
      rw [List.zip_map_right]
      exact List.map_congr_left (fun x _ => rfl)
    rw [hzip]
    unfold stepAggr
    rw [stepAggr_map_coerce (uids.zip vals) []]

/-! Concrete witnesses and counterexamples.  The rational arithmetic of
Batteries is irreducible by default; unsealing lets the kernel evaluate
the embedded allocator and estimator on concrete inputs. -/

unseal Rat.add Rat.mul Rat.inv Rat.sub Rat.ofScientific

/-- Claim C1 (counterexample): `p = [1/2, 1e-9]` has both entries strictly
inside `(0, 1)` and the budget `4 = M * n_low` is feasible for
`n_low = 2, n_up = 10`, yet the allocator returns `[4, 0]`: the second key
is classified hard (`p ≤ 1e-8`), receives nothing, and the entry `0` lies
outside `[n_low, n_up]`. -/
theorem allocator_feasible_interior_cex :
    ((0 : ℚ) < 1 / 2 ∧ (1 : ℚ) / 2 < 1 ∧ (0 : ℚ) < 1 / 10 ^ 9 ∧ (1 : ℚ) / 10 ^ 9 < 1) ∧
      (2 : ℤ) * 2 ≤ 4 ∧ (4 : ℤ) ≤ 2 * 10 ∧
      allocateWithExtremes [1 / 2, 1 / 10 ^ 9] 4 2 10 1 true = some [4, 0] ∧
      ¬ (∀ x ∈ ([4, 0] : List ℤ), 2 ≤ x ∧ x ≤ 10) := by decide

/-- Witness for the amended claim C1 at `p = [1/2]`, `total_budget = 2`,
`n_low = 1`, `n_up = 2`. -/
theorem allocator_feasible_mid_region_witness :
    (∀ q ∈ [(1 : ℚ) / 2], epsQ < q ∧ q < 1 - epsQ) ∧
      (∃ v, allocateWithExtremes [(1 : ℚ) / 2] 2 1 2 1 true = some v ∧
        allocFeasible [(1 : ℚ) / 2].length 1 2 2 v) :=
  ⟨by decide, allocator_feasible_mid_region [(1 : ℚ) / 2] 2 1 2 1 true (by decide)
    (by decide) (by decide) (by decide) (by decide) (by decide)⟩

/-- Witness for claim C2 at `p = [1/2]`, budget `2`, bounds `[1, 2]`. -/
theorem knapsack_dp_bruteforce_equiv_witness :
    ([(1 : ℚ) / 2].length ≤ 5 ∧ (2 : ℤ) - 1 ≤ 5 ∧
      (∀ q ∈ [(1 : ℚ) / 2], 0 < q ∧ q < 1)) ∧
      (allocFeasible [(1 : ℚ) / 2].length 1 2 2 (knapsackDP [(1 : ℚ) / 2] 2 1 2) ∧
        ∀ N, allocFeasible [(1 : ℚ) / 2].length 1 2 2 N →
          objective [(1 : ℚ) / 2] N ≤ objective [(1 : ℚ) / 2] (knapsackDP [(1 : ℚ) / 2] 2 1 2)) :=
  ⟨⟨by decide, by decide, by decide⟩,
    knapsack_dp_bruteforce_equiv [(1 : ℚ) / 2] 2 1 2 (by decide) (by decide)
      (by decide) (by decide) (by decide) (by decide) (by decide)⟩

/-- Claim C3 (counterexample): all-easy input `p = [1]` with
`easy_min_cover = true` and `total_budget = 5 > M * n_low = 2` returns
`[5]`, not `n_low = 2` for the single key: the final repair loop pushes the
surplus onto the easy key. -/
theorem easy_min_cover_nlow_cex :
    (1 : ℚ) - epsQ ≤ 1 ∧ (0 : ℤ) ≤ 5 ∧
      allocateWithExtremes [1] 5 2 10 1 true = some [5] ∧
      ([5] : List ℤ) ≠ List.replicate 1 2 := by decide

/-- Witness for the amended claim C3 at `p = [1]`,
`total_budget = 2 = 1 * n_low`, `n_low = 2`, `n_up = 10`. -/
theorem easy_min_cover_exact_nlow_witness :
    (∀ q ∈ [(1 : ℚ)], 1 - epsQ ≤ q) ∧
      allocateWithExtremes [1] 2 2 10 1 true = some (List.replicate [(1 : ℚ)].length 2) :=
  ⟨by decide, easy_min_cover_exact_nlow [1] 2 2 10 1 (by decide) (by decide)
    (by decide) (by decide)⟩

/-- Claim C4 (counterexample): with `p = [1/2]`, `total_budget = 100`,
`n_low = 1`, `n_up = 2` (so `total_budget > M * n_up`), the call returns
normally with `[2]` — whose sum `2` differs from `total_budget = 100` — and
no internal error is surfaced. -/
theorem repair_internal_error_cex :
    (1 : ℤ) * 2 < 100 ∧
      allocateWithExtremes [1 / 2] 100 1 2 1 true = some [2] ∧
      ([2] : List ℤ).sum ≠ 100 := by decide

/-- Witness for the amended claim C4 at `p = [1/2]`, `total_budget = 100`,
`n_low = 1`, `n_up = 2`. -/
theorem repair_bounded_returns_short_sum_witness :
    ((0 : ℤ) ≤ 100 ∧ ([(1 : ℚ) / 2].length : ℤ) * 2 < 100) ∧
      (∃ v, allocateWithExtremes [(1 : ℚ) / 2] 100 1 2 1 true = some v ∧
        v.length = [(1 : ℚ) / 2].length ∧ v.sum < 100) :=
  ⟨⟨by decide, by decide⟩,
    repair_bounded_returns_short_sum [(1 : ℚ) / 2] 100 1 2 1 true (by decide)
      (by decide) (by decide) (by decide)⟩

/-- Claim C5 (counterexample): `p = [1/2, 1/2]` with
`total_budget = 3 < M * n_low = 4` raises no error but does not scale down
the already-assigned counts (all zero, which would give `[0, 0]`) and does
not return immediately: the DP fallback and the repair loop produce
`[2, 1]`, whose sum is even exact. -/
theorem infeasible_scaledown_branch_cex :
    (3 : ℤ) < 2 * 2 ∧
      allocateWithExtremes [1 / 2, 1 / 2] 3 2 10 1 true = some [2, 1] ∧
      scaleDown [0, 0] 3 = [0, 0] ∧ ([2, 1] : List ℤ) ≠ [0, 0] := by decide

/-- Witness for the amended claim C5 at `p = [1]`, `total_budget = 1`,
`n_low = 2`, `n_up = 10`. -/
theorem infeasible_budget_scaledown_witness :
    ((∀ q ∈ [(1 : ℚ)], 1 - epsQ ≤ q) ∧ (1 : ℤ) < ([(1 : ℚ)].length : ℤ) * 2) ∧
      (allocateWithExtremes [1] 1 2 10 1 true =
        some (List.replicate [(1 : ℚ)].length
          ⌊(2 : ℚ) * ((1 : ℚ) / ((([(1 : ℚ)].length : ℤ) * 2 : ℤ) : ℚ))⌋) ∧
      (List.replicate [(1 : ℚ)].length
          ⌊(2 : ℚ) * ((1 : ℚ) / ((([(1 : ℚ)].length : ℤ) * 2 : ℤ) : ℚ))⌋).sum ≤ 1) :=
  ⟨⟨by decide, by decide⟩,
    infeasible_budget_scaledown [1] 1 2 10 1 (by decide) (by decide) (by decide)
      (by decide) (by decide) (by decide)⟩

/-- Claim C6 (counterexample): all-hard input `p = [0, 0]` with
`total_budget = 2 < M * n_low = 4` returns `[2, 2]`, not the
uniform-as-possible split `[1, 1]`: clipping to `n_low` and the repair loop
deform the split outside the feasible budget range. -/
theorem hard_uniform_split_cex :
    ((0 : ℚ) ≤ epsQ) ∧
      allocateWithExtremes [0, 0] 2 2 10 1 true = some [2, 2] ∧
      ([2, 2] : List ℤ) ≠ [1, 1] := by decide

/-- Witness for the amended claim C6 at `p = [0, 0]`, `total_budget = 5`,
`n_low = 2`, `n_up = 10`. -/
theorem hard_uniform_split_feasible_witness :
    (∀ q ∈ [(0 : ℚ), 0], q ≤ epsQ) ∧
      (allocateWithExtremes [0, 0] 5 2 10 1 true =
        some ((List.range [(0 : ℚ), 0].length).map (fun j : ℕ =>
          Int.fdiv 5 [(0 : ℚ), 0].length +
            if (j : ℤ) < Int.fmod 5 [(0 : ℚ), 0].length then 1 else 0)) ∧
      ∀ x ∈ (List.range [(0 : ℚ), 0].length).map (fun j : ℕ =>
          Int.fdiv 5 [(0 : ℚ), 0].length +
            if (j : ℤ) < Int.fmod 5 [(0 : ℚ), 0].length then 1 else 0),
        2 ≤ x ∧ x ≤ 10) :=
  ⟨by decide, hard_uniform_split_feasible [0, 0] 5 2 10 1 true (by decide)
    (by decide) (by decide) (by decide) (by decide) (by decide)⟩

/-- Witness for claim C7: one call with keys `["a", "a", "b"]` and outcomes
`[1, 0, 1]` on the default-constructed estimator. -/
theorem update_batch_grouped_ema_witness :
    (["a", "a", "b"] : List String).length = ([1, 0, 1] : List ℚ).length ∧
      (∃ e₂, updateBatch e0 ["a", "a", "b"] [1, 0, 1] = some e₂ ∧
        (∀ u, u ∈ ["a", "a", "b"] →
          e₂.succFailEma u = some
            (e0.ema * (((e0.succFailEma u).getD (0, 0)).1) +
              (1 - e0.ema) * (scP (["a", "a", "b"].zip [1, 0, 1]) u : ℚ),
             e0.ema * (((e0.succFailEma u).getD (0, 0)).2) +
              (1 - e0.ema) * (fcP (["a", "a", "b"].zip [1, 0, 1]) u : ℚ))) ∧
        (∀ u, u ∉ ["a", "a", "b"] → e₂.succFailEma u = e0.succFailEma u)) :=
  ⟨rfl, update_batch_grouped_ema e0 ["a", "a", "b"] [1, 0, 1] rfl⟩

/-- Claim C8 (counterexample): on a fresh estimator with the default priors
`alpha = beta = 1`, `estimate` for an unseen key returns
`1 / (2 + 1e-9) = 10^9 / (2 * 10^9 + 1)`, which is not exactly the prior
mean `alpha / (alpha + beta) = 1/2`. -/
theorem estimate_prior_mean_cex :
    e0.succFailEma "a" = none ∧
      estimate e0 ["a"] ≠ [e0.alpha / (e0.alpha + e0.beta)] := by decide

/-- Witness for the amended claim C8: the unseen key `"a"` on the
default-constructed estimator. -/
theorem estimate_unseen_prior_eps_witness :
    e0.succFailEma "a" = none ∧ 0 < (["a"] : List String).length ∧
      (estimate e0 ["a"]).getD 0 0 = e0.alpha / (e0.alpha + e0.beta + 1 / 10 ^ 9) :=
  ⟨rfl, by decide, estimate_unseen_prior_eps e0 "a" rfl ["a"] 0 (by decide) rfl⟩

/-- Witness for claim C9 at `p = [1/2]`, budgets `1` and `2`, bounds
`[1, 2]`. -/
theorem objective_monotone_budget_witness :
    ((∀ q ∈ [(1 : ℚ) / 2], 0 < q ∧ q < 1) ∧
      ([(1 : ℚ) / 2].length : ℤ) * 1 ≤ 1 ∧ (1 : ℤ) < ([(1 : ℚ) / 2].length : ℤ) * 2) ∧
      objective [(1 : ℚ) / 2] (knapsackDP [(1 : ℚ) / 2] 1 1 2) ≤
        objective [(1 : ℚ) / 2] (knapsackDP [(1 : ℚ) / 2] (1 + 1) 1 2) :=
  ⟨⟨by decide, by decide, by decide⟩,
    objective_monotone_budget [(1 : ℚ) / 2] 1 1 2 (by decide) (by decide) (by decide)⟩

/-- Witness for claim C10: outcomes `[2, -1]` outside `{0, 1}` are accepted
and coerced. -/
theorem update_batch_coercion_witness :
    (["a", "b"] : List String).length = ([2, -1] : List ℚ).length ∧
      ((updateBatch e0 ["a", "b"] [2, -1]).isSome = true ∧
        updateBatch e0 ["a", "b"] [2, -1] =
          updateBatch e0 ["a", "b"] (([2, -1] : List ℚ).map
            (fun v => if 0 < v then (1 : ℚ) else 0))) :=
  ⟨rfl, update_batch_coercion e0 ["a", "b"] [2, -1] rfl⟩
